import Mathlib

/-!
Verification development for the `code_watcher` incremental dependency-graph
engine.  The definitions below are a shallow embedding of
`code_watcher/analyzer.py` and `code_watcher/cache_manager.py`:

* Python dicts (which preserve insertion order) are modelled as association
  lists `List (String × α)`; dict assignment is `alistSet`, and the
  `setdefault(..)["depends_on"].append(..)` idiom is `appendDep`.
* Python sets of strings are `Finset String`; `sorted(s)` is `sortDeps`.
* The relevant fragment of the Python `ast` module is the `PExpr`/`PStmt`
  inductive types; `ast.walk`-collection of `ast.Name` identifiers is
  `stmtsWalkNames` (note that `ast.Call` targets that are plain names are
  themselves `ast.Name` nodes, so the analyzer's separate `ast.Call` branch
  adds nothing beyond the `ast.Name` branch).
* File-system access is abstracted by `FileInput`: a path that does not
  exist, a file whose text fails to parse, or a parsed syntax tree.
* Unbounded Python recursion / `while` loops are given explicit fuel, with
  closed-form sufficient fuel proved to stabilize the result.
-/

/-- Python `".".join(parts)`. -/
def dotJoin : List String → String
  | [] => ""
  | [x] => x
  | x :: y :: xs => x ++ "." ++ dotJoin (y :: xs)

/-- Python `s.strip()`: drop whitespace from both ends.  (Implemented over
the character list so that it evaluates inside the kernel.) -/
def pyStrip (s : String) : String :=
  ⟨((s.data.dropWhile Char.isWhitespace).reverse.dropWhile Char.isWhitespace).reverse⟩

/-- Worker for `pySplit`: scan the character list, cutting at each occurrence
of the separator; fuel is the input length plus one, enough because every
step consumes at least one character (the separators used are nonempty). -/
def pySplitGo (sep : List Char) : Nat → List Char → List Char → List (List Char)
  | _, [], acc => [acc.reverse]
  | 0, l, acc => [acc.reverse ++ l]
  | fuel + 1, c :: rest, acc =>
    if sep.isPrefixOf (c :: rest) then
      acc.reverse :: pySplitGo sep fuel (List.drop sep.length (c :: rest)) []
    else pySplitGo sep fuel rest (c :: acc)

/-- Python `s.split(sep)` for a nonempty separator. -/
def pySplit (sep s : String) : List String :=
  (pySplitGo sep.data (s.data.length + 1) s.data []).map (fun l => ⟨l⟩)

/-- Python `s.startswith(pre)`. -/
def pyStartsWith (s pre : String) : Bool := pre.data.isPrefixOf s.data

/-- Python `s.split(".")[-1]`. -/
def lastPart (s : String) : String := (pySplit "." s).getLastD ""

/-- `CacheManager.get_ordered_recursive_affected`, helper `matches`:
`dep.split(".")[-1] == target.split(".")[-1]`. -/
def nameMatches (dep target : String) : Bool := lastPart dep == lastPart target

/-- The `normalize` helper of `analyze_file_changes` / `get_deleted_variables_impact`:
collapse `a.b. ... .z` (more than two parts) to `a.z`. -/
def normalizeName (name : String) : String :=
  let parts := pySplit "." name
  if parts.length > 2 then (parts.getD 0 "") ++ "." ++ parts.getLastD "" else name

/-- Python `s.endswith(suf)`. -/
def endswith (s suf : String) : Bool := suf.data.isSuffixOf s.data

/-- Dict assignment `m[k] = v`: replace the value at an existing key in place,
otherwise append the new binding (Python dicts keep insertion order). -/
def alistSet (m : List (String × α)) (k : String) (v : α) : List (String × α) :=
  if (m.lookup k).isSome then m.map (fun p => if p.1 = k then (p.1, v) else p)
  else m ++ [(k, v)]

/-- The idiom `m.setdefault(k, {"depends_on": []})["depends_on"].append(dep)`. -/
def appendDep (m : List (String × List String)) (k dep : String) :
    List (String × List String) :=
  if (m.lookup k).isSome then
    m.map (fun p => if p.1 = k then (p.1, p.2 ++ [dep]) else p)
  else m ++ [(k, [dep])]

mutual

/-- Python expressions, restricted to the node kinds the analyzer inspects:
`ast.Name`, `ast.Attribute`, `ast.Call`; `const` stands for any literal and
`binop` for any compound expression node whose children are walked.
(Argument lists are the companion inductive `PExprList` so that recursion
over expressions stays structural and kernel-evaluable.) -/
inductive PExpr where
  | name (id : String)
  | attr (value : PExpr) (attrName : String)
  | call (func : PExpr) (args : PExprList)
  | const
  | binop (lhs rhs : PExpr)

/-- A list of expressions (`ast.Call.args`). -/
inductive PExprList where
  | nil
  | cons (e : PExpr) (rest : PExprList)

end

/-- View a `PExprList` as an ordinary list. -/
def PExprList.toList : PExprList → List PExpr
  | .nil => []
  | .cons e rest => e :: rest.toList

mutual

/-- Python statements, restricted to the node kinds with `visit_` handlers
(`Assign`, `FunctionDef`, `ClassDef`) plus handler-less statements whose
children are still reached by `ast.walk` (`Return`, expression statements,
`pass`).  Statement blocks are the companion inductive `PBody`. -/
inductive PStmt where
  | assign (targets : List PExpr) (value : PExpr)
  | functionDef (name : String) (args : List String) (body : PBody)
  | classDef (name : String) (body : PBody)
  | ret (value : PExpr)
  | exprStmt (value : PExpr)
  | pass

/-- A block of statements (a `body` list in the Python AST). -/
inductive PBody where
  | nil
  | cons (s : PStmt) (rest : PBody)

end

/-- Build a statement block from an ordinary list. -/
def PBody.ofList : List PStmt → PBody
  | [] => .nil
  | s :: rest => .cons s (PBody.ofList rest)

mutual

/-- All `ast.Name` identifiers occurring in an expression (as collected by
`ast.walk`; an `ast.Attribute`'s `attr` field is a plain string, not a node). -/
def exprWalkNames : PExpr → List String
  | .name i => [i]
  | .attr v _ => exprWalkNames v
  | .call f args => exprWalkNames f ++ exprsWalkNames args
  | .const => []
  | .binop l r => exprWalkNames l ++ exprWalkNames r

def exprsWalkNames : PExprList → List String
  | .nil => []
  | .cons e es => exprWalkNames e ++ exprsWalkNames es

end

/-- All `ast.Name` identifiers in a list of expressions (assignment targets). -/
def exprListWalkNames (l : List PExpr) : List String :=
  l.foldr (fun e acc => exprWalkNames e ++ acc) []

mutual

/-- All `ast.Name` identifiers in a statement, as seen by `ast.walk` from an
enclosing `FunctionDef` node: assignment targets are `ast.Name` nodes and are
collected; function/class def names and parameters are plain strings /
`ast.arg` nodes and are not. -/
def stmtWalkNames : PStmt → List String
  | .assign tgts v => exprListWalkNames tgts ++ exprWalkNames v
  | .functionDef _ _ body => stmtsWalkNames body
  | .classDef _ body => stmtsWalkNames body
  | .ret v => exprWalkNames v
  | .exprStmt v => exprWalkNames v
  | .pass => []

def stmtsWalkNames : PBody → List String
  | .nil => []
  | .cons s ss => stmtWalkNames s ++ stmtsWalkNames ss

end

/-- The mutable state of `build_full_graph_for_file.Analyzer`: the scope
stacks, `func_params`, and the two halves of the per-file graph. -/
structure AnState where
  currentClass : List String
  currentFunc : List String
  funcParams : List (String × List String)
  variables_ : List (String × List String)
  functions : List (String × List String)

/-- `Analyzer.qualify`: `".".join([file_name] + current_class + current_func + [name])`. -/
def qualify (fileName : String) (st : AnState) (name : String) : String :=
  dotJoin (fileName :: (st.currentClass ++ st.currentFunc ++ [name]))

/-- Lexicographic comparison of character lists by Unicode code point
(Python string `<=`), implemented so that it evaluates in the kernel. -/
def charListLe : List Char → List Char → Bool
  | [], _ => true
  | _ :: _, [] => false
  | a :: as, b :: bs =>
    if a.toNat < b.toNat then true
    else if b.toNat < a.toNat then false
    else charListLe as bs

/-- Python string comparison `a <= b`. -/
def strLe (a b : String) : Bool := charListLe a.data b.data

/-- Insert into a `strLe`-sorted list, keeping it sorted. -/
def insortStr (x : String) : List String → List String
  | [] => [x]
  | y :: ys => if strLe x y then x :: y :: ys else y :: insortStr x ys

/-- Insertion sort by `strLe`. -/
def sortStrs (l : List String) : List String := l.foldr insortStr []

/-- Python sets of strings are modelled as duplicate-free lists built with
`setAdd`; only membership is ever observed before sorting. -/
def setAdd (l : List String) (x : String) : List String :=
  if x ∈ l then l else l ++ [x]

/-- Collect a list into a set (dedup). -/
def setOfList (l : List String) : List String := l.foldl setAdd []

/-- Python `sorted(deps)` for a set of strings (given as a dedup list). -/
def sortDeps (deps : List String) : List String := sortStrs deps

/-- The argument loop of `visit_Assign` CASE 1: for each plain-identifier
argument, add its qualified name to `depends_on` and append it onto every
known function (by bare-name suffix match) parameter's `depends_on` list. -/
def propagateArgs (fileName : String) (st : AnState) (funcName : String)
    (args : List PExpr) (acc : List String × List (String × List String)) :
    List String × List (String × List String) :=
  args.foldl (fun a arg =>
    match arg with
    | .name aid =>
      let argName := qualify fileName st aid
      let vars' := st.funcParams.foldl (fun vs fp =>
        if endswith fp.1 ("." ++ funcName) then
          fp.2.foldl (fun vs2 param => appendDep vs2 (fp.1 ++ "." ++ param) argName) vs
        else vs) a.2
      (setAdd a.1 argName, vars')
    | _ => a) acc

/-- The body of `visit_Assign`'s target loop for one target: skip non-`Name`
targets; otherwise branch on the assignment's right-hand side exactly as the
source does (call-to-name / call-to-attribute / other call / non-call). -/
def processTarget (fileName : String) (st : AnState) (value : PExpr)
    (vars : List (String × List String)) (tgt : PExpr) :
    List (String × List String) :=
  match tgt with
  | .name varName =>
    let scopedName := qualify fileName st varName
    match value with
    | .call (.name funcName) args =>
        let qualifiedFunc := qualify fileName st funcName
        let r := propagateArgs fileName st funcName args.toList ([qualifiedFunc], vars)
        alistSet r.2 scopedName (sortDeps r.1)
    | .call (.attr _ attrName) _ => alistSet vars scopedName (sortDeps [attrName])
    | .call _ _ => alistSet vars scopedName (sortDeps [])
    | _ =>
        let deps := setOfList ((exprWalkNames value).map (qualify fileName st))
        alistSet vars scopedName (sortDeps deps)
  | _ => vars

mutual

/-- One step of `Analyzer.visit` dispatch.  `visit_FunctionDef` pushes the
function name, registers `func_params` and the function's dependency set
(every non-builtin walked identifier qualified in the pushed scope, plus the
qualified parameters), then generically visits the body and pops.  Note that
the Python code pushes `node.name` onto `current_func` *before* qualifying,
so a top-level `def f` is keyed `file.f.f`. -/
def visitStmt (fileName : String) (builtinNames : List String) :
    PStmt → AnState → AnState
  | .assign targets value, st =>
      { st with variables_ := targets.foldl (processTarget fileName st value) st.variables_ }
  | .functionDef name args body, st =>
      let st0 := { st with currentFunc := st.currentFunc ++ [name] }
      let qName := qualify fileName st0 name
      let deps : List String :=
        setOfList
          ((((stmtsWalkNames body).filter (fun i => !(builtinNames.contains i))).map
              (qualify fileName st0)) ++
            args.map (qualify fileName st0))
      let st1 := { st0 with
        funcParams := alistSet st0.funcParams qName args,
        functions := alistSet st0.functions qName (sortDeps deps) }
      let st2 := visitStmts fileName builtinNames body st1
      { st2 with currentFunc := st.currentFunc }
  | .classDef name body, st =>
      let st0 := { st with currentClass := st.currentClass ++ [name] }
      let st1 := visitStmts fileName builtinNames body st0
      { st1 with currentClass := st.currentClass }
  | .ret _, st => st
  | .exprStmt _, st => st
  | .pass, st => st

def visitStmts (fileName : String) (builtinNames : List String) :
    PBody → AnState → AnState
  | .nil, st => st
  | .cons s rest, st =>
      visitStmts fileName builtinNames rest (visitStmt fileName builtinNames s st)

end

/-- A per-file symbol table: the `{"variables": .., "functions": ..}` dict,
with each symbol's `{"depends_on": [..]}` record collapsed to its list. -/
structure SymbolTable where
  variables_ : List (String × List String)
  functions : List (String × List String)
deriving DecidableEq

/-- The three ways reading a path can go inside `build_full_graph_for_file`:
the path does not exist, its text fails to parse, or parsing yields a tree. -/
inductive FileInput where
  | missing
  | unparsable
  | parsed (tree : PBody)

def initAnState : AnState := ⟨[], [], [], [], []⟩

/-- `build_full_graph_for_file`: empty table when the path is missing or the
source fails to parse, otherwise run the `Analyzer` visitor over the tree. -/
def build_full_graph_for_file (fileName : String) (builtinNames : List String) :
    FileInput → SymbolTable
  | .missing => ⟨[], []⟩
  | .unparsable => ⟨[], []⟩
  | .parsed tree =>
      let st := visitStmts fileName builtinNames tree initAnState
      ⟨st.variables_, st.functions⟩

/-- A cross-file project graph: file path → per-file symbol table
(the JSON object persisted by `CacheManager`). -/
abbrev ProjectGraph := List (String × SymbolTable)

/-- `CacheManager.get_changed_lines`, lines 40–46: 1-based indices `i+1` such
that `i >= len(old_lines)` or the trimmed `i`-th lines differ.  (The
reorder-only classification computed afterwards is not modelled; no claim
refers to it.) -/
def get_changed_lines (old_lines current_lines : List String) : List Nat :=
  (List.range current_lines.length).filterMap (fun i =>
    if old_lines.length ≤ i ∨
        pyStrip (current_lines.getD i "") ≠ pyStrip (old_lines.getD i "") then
      some (i + 1)
    else none)

/-- State of the recursive traversal in `get_ordered_recursive_affected`:
one `visited` set and one `ordered` output list (per kind). -/
structure DfsSt where
  visited : List String
  ordered : List String
deriving DecidableEq

/-- The inner double loop of `visit_var` / `visit_func`: every symbol name of
the selected kind, anywhere in the project graph, listed once per dependency
that bare-name-matches the target (the source calls `visit_var(v_name)` once
per matching dependency; later calls are no-ops). -/
def dependents (sel : SymbolTable → List (String × List String))
    (g : ProjectGraph) (target : String) : List String :=
  g.foldr (fun ft acc =>
    (sel ft.2).foldr (fun vi acc2 =>
      vi.2.foldr (fun dep acc3 =>
        if nameMatches dep target then vi.1 :: acc3 else acc3) [] ++ acc2) acc) []

/-- `visit_var` / `visit_func` (the two closures differ only in which half of
each file's table they scan, abstracted by `sel`): if already visited return,
else mark visited, recursively visit every dependent of the same kind, then
append the symbol to the ordered list.  The recursion is given explicit fuel;
`dfsFuel` below is proved sufficient. -/
def visitSym (sel : SymbolTable → List (String × List String)) (g : ProjectGraph) :
    Nat → String → DfsSt → DfsSt
  | 0, _, st => st
  | fuel + 1, sym, st =>
    if sym ∈ st.visited then st
    else
      let st1 : DfsSt := ⟨sym :: st.visited, st.ordered⟩
      let st2 := (dependents sel g sym).foldl (fun s n => visitSym sel g fuel n s) st1
      ⟨st2.visited, st2.ordered ++ [sym]⟩

/-- The seed loop `for v in changed_vars: visit_var(v)` (resp. functions). -/
def runVisit (sel : SymbolTable → List (String × List String)) (g : ProjectGraph)
    (fuel : Nat) (seeds : List String) : DfsSt :=
  seeds.foldl (fun s v => visitSym sel g fuel v s) ⟨[], []⟩

/-- Selector for the `variables` half of a table. -/
def varTab (t : SymbolTable) : List (String × List String) := t.variables_

/-- Selector for the `functions` half of a table. -/
def funcTab (t : SymbolTable) : List (String × List String) := t.functions

/-- All symbol names of one kind appearing in the project graph. -/
def allKeys (sel : SymbolTable → List (String × List String)) (g : ProjectGraph) :
    List String :=
  g.foldr (fun ft acc => (sel ft.2).map Prod.fst ++ acc) []

/-- Sufficient fuel for `visitSym`: one more than the number of distinct
symbols the traversal can ever visit (graph keys of that kind plus seeds). -/
def dfsFuel (sel : SymbolTable → List (String × List String)) (g : ProjectGraph)
    (seeds : List String) : Nat :=
  (allKeys sel g ++ seeds).toFinset.card + 1

/-- `CacheManager.get_ordered_recursive_affected`: run the strict-kind
reverse-dependency walk from each seed, then reverse each ordered list. -/
def get_ordered_recursive_affected (g : ProjectGraph)
    (changed_vars changed_funcs : List String) : List String × List String :=
  ((runVisit varTab g (dfsFuel varTab g changed_vars) changed_vars).ordered.reverse,
   (runVisit funcTab g (dfsFuel funcTab g changed_funcs) changed_funcs).ordered.reverse)

/-- Reachability along same-kind reverse dependencies: `Reach sel g x y` holds
when `y` can be reached from `x` by repeatedly stepping to a symbol of the
same kind whose dependency list bare-name-matches the current symbol. -/
inductive Reach (sel : SymbolTable → List (String × List String)) (g : ProjectGraph) :
    String → String → Prop
  | refl (x : String) : Reach sel g x x
  | step {x y z : String} : y ∈ dependents sel g x → Reach sel g y z → Reach sel g x z

/-- Image of a set of names under `normalize` (the incrementally maintained
`normalized_vars` / `normalized_funcs` / `normalized_affected` sets equal
exactly this image of the corresponding affected set at every point of the
source loops: they are initialized as the image and every insertion updates
both sets in lock step). -/
def normSet (s : Finset String) : Finset String := s.image normalizeName

/-- One `for .. in table.items()` pass of the fixed-point loops: scan the
entries in order; when the test on the current accumulated set fires and the
key is not yet present, insert it and raise the `changed` flag. -/
def tablePass (test : Finset String → List String → Bool)
    (entries : List (String × List String)) (acc : Finset String × Bool) :
    Finset String × Bool :=
  entries.foldl (fun a e =>
    if test a.1 e.2 then
      if e.1 ∈ a.1 then a else (insert e.1 a.1, true)
    else a) acc

/-- The membership test of `expand_impacts`:
`any(d in normalized_vars or d in normalized_funcs for d in deps)` where the
first set is the growing one of the current pass and the other is fixed. -/
def impactTest (other : Finset String) (own : Finset String) (deps : List String) : Bool :=
  deps.any (fun d => normalizeName d ∈ normSet own ∨ normalizeName d ∈ normSet other)

/-- One full `while changed` iteration of `expand_impacts`: the variables pass
(growing `affected_vars`, consulting the fixed `affected_funcs`), then the
functions pass (growing `affected_funcs`, consulting the updated variables). -/
def onePass (fg : SymbolTable) (s : Finset String × Finset String) :
    (Finset String × Finset String) × Bool :=
  let rv := tablePass (impactTest s.2) fg.variables_ (s.1, false)
  let rf := tablePass (impactTest rv.1) fg.functions (s.2, rv.2)
  ((rv.1, rf.1), rf.2)

/-- The `while changed:` loop of `expand_impacts`, with fuel. -/
def expandImpacts (fg : SymbolTable) :
    Nat → Finset String × Finset String → Finset String × Finset String
  | 0, s => s
  | fuel + 1, s =>
    let r := onePass fg s
    if r.2 then expandImpacts fg fuel r.1 else r.1

/-- Sufficient fuel for the fixed-point loops of one file's table. -/
def symBound (fg : SymbolTable) : Nat :=
  (fg.variables_.map Prod.fst).toFinset.card + (fg.functions.map Prod.fst).toFinset.card + 1

/-- STEP 1 of `analyze_file_changes`: scan the file's raw lines (1-based); a
changed `def ` line seeds every function whose qualified name ends with the
extracted bare name; otherwise a changed line containing `=` (and not a `#`
comment) seeds every variable whose qualified name ends with the bare
left-hand side. -/
def detectSeeds (fg : SymbolTable) (lines : List String) (changed_lines : List Nat) :
    Finset String × Finset String :=
  (List.enumFrom 1 lines).foldl (fun acc il =>
    if il.1 ∈ changed_lines then
      let stripped := pyStrip il.2
      if pyStartsWith stripped "def " then
        let func_name := pyStrip (((pySplit "(" ((pySplit "def " stripped).getD 1 "")).getD 0 ""))
        (acc.1,
         fg.functions.foldr (fun fi a2 =>
           if endswith fi.1 ("." ++ func_name) then insert fi.1 a2 else a2) acc.2)
      else if 2 ≤ (pySplit "=" il.2).length ∧ ¬ pyStartsWith stripped "#" then
        let left_side := pyStrip ((pySplit "=" il.2).getD 0 "")
        let var_name := lastPart left_side
        (fg.variables_.foldr (fun vi a1 =>
           if endswith vi.1 ("." ++ var_name) then insert vi.1 a1 else a1) acc.1,
         acc.2)
      else acc
    else acc) (∅, ∅)

/-- `analyze_file_changes`: build the file's graph, detect directly changed
symbols from the changed lines, then run the collapsed fixed-point expansion
to a stable state.  The `lines` argument is the same file's raw text (the
source re-reads the path it just parsed). -/
def analyze_file_changes (fileName : String) (builtinNames : List String)
    (inp : FileInput) (lines : List String) (changed_lines : List Nat) :
    Finset String × Finset String :=
  let file_graph := build_full_graph_for_file fileName builtinNames inp
  let seeds := detectSeeds file_graph lines changed_lines
  expandImpacts file_graph (symBound file_graph) seeds

/-- The membership test of `expand_deletion_impact`:
`any(d in normalized_affected for d in deps)` over a single affected set. -/
def delTest (own : Finset String) (deps : List String) : Bool :=
  deps.any (fun d => normalizeName d ∈ normSet own)

/-- One full `while changed` iteration of `expand_deletion_impact`: variables
pass then functions pass, both growing the same kind-less affected set. -/
def onePassDel (ng : SymbolTable) (s : Finset String) : Finset String × Bool :=
  let rv := tablePass delTest ng.variables_ (s, false)
  tablePass delTest ng.functions rv

/-- The `while changed:` loop of `expand_deletion_impact`, with fuel. -/
def expandDeletionImpact (ng : SymbolTable) : Nat → Finset String → Finset String
  | 0, s => s
  | fuel + 1, s =>
    let r := onePassDel ng s
    if r.2 then expandDeletionImpact ng fuel r.1 else r.1

/-- `get_deleted_variables_impact`: diff the old table against the freshly
built one, seed the affected set with every current symbol (of either kind)
one of whose dependencies collapses onto a deleted name, then expand without
kind separation.  Returns `(deleted_vars, deleted_funcs, affected_by_deletion)`.
(The Python function also receives `full_project_graph` but never uses it.) -/
def get_deleted_variables_impact (fileName : String) (builtinNames : List String)
    (inp : FileInput) (old_graph : SymbolTable) :
    Finset String × Finset String × Finset String :=
  let new_graph := build_full_graph_for_file fileName builtinNames inp
  let old_vars := (old_graph.variables_.map Prod.fst).toFinset
  let new_vars := (new_graph.variables_.map Prod.fst).toFinset
  let old_funcs := (old_graph.functions.map Prod.fst).toFinset
  let new_funcs := (new_graph.functions.map Prod.fst).toFinset
  let deleted_vars := old_vars \ new_vars
  let deleted_funcs := old_funcs \ new_funcs
  let deletedNorm := normSet (deleted_vars ∪ deleted_funcs)
  let seed1 := new_graph.variables_.foldr (fun vi a =>
    if vi.2.any (fun dep => normalizeName dep ∈ deletedNorm) then insert vi.1 a else a) ∅
  let seed2 := new_graph.functions.foldr (fun fi a =>
    if fi.2.any (fun dep => normalizeName dep ∈ deletedNorm) then insert fi.1 a else a) seed1
  let affected := expandDeletionImpact new_graph (symBound new_graph) seed2
  (deleted_vars, deleted_funcs, affected)

/-- The claim's reading of "the file's content is unchanged": no line's
trimmed text differs and no lines were added or removed. -/
def unchangedSpec (old_lines current_lines : List String) : Prop :=
  current_lines.length = old_lines.length ∧
    ∀ i, i < current_lines.length →
      pyStrip (current_lines.getD i "") = pyStrip (old_lines.getD i "")

/-- Ascending sortedness by Python string comparison. -/
def StrSorted (l : List String) : Prop := l.Pairwise (fun a b => strLe a b = true)

/-- Number of `.` characters in a string (a proof-side measure: a qualified
name produced under a scope chain of `n` names contains at least `n` dots). -/
def dotCount (s : String) : Nat := s.data.count '.'

/-- The fixed-point property of the collapsed single-file expansion: any
symbol whose collapsed dependency set meets the collapsed affected sets is
already in the affected set of its kind. -/
def isFixedPoint (fg : SymbolTable) (s : Finset String × Finset String) : Prop :=
  (∀ v ds, (v, ds) ∈ fg.variables_ →
    (∃ d ∈ ds, normalizeName d ∈ normSet s.1 ∨ normalizeName d ∈ normSet s.2) →
    v ∈ s.1) ∧
  (∀ f ds, (f, ds) ∈ fg.functions →
    (∃ d ∈ ds, normalizeName d ∈ normSet s.1 ∨ normalizeName d ∈ normSet s.2) →
    f ∈ s.2)

/-- The parameter-superset invariant carried through the analyzer: every
registered function (keyed in `func_params`) has a `functions` entry whose
dependency list contains each of its parameters qualified under the
function's own scope (`Q ++ "." ++ p`, where the function's key is
`Q ++ "." ++ nm`). -/
def ParamInv (st : AnState) : Prop :=
  ∀ qn ps, st.funcParams.lookup qn = some ps →
    ∃ Q nm deps, qn = Q ++ "." ++ nm ∧ st.functions.lookup qn = some deps ∧
      ∀ p ∈ ps, (Q ++ "." ++ p) ∈ deps

/-- A variable entry is "sort-safe" relative to a functions table `F`: its
list is sorted, or its key extends some function key by `"." ++ s` (the shape
of the keys targeted by argument-to-parameter synthesis, whose lists are
appended to, not sorted). -/
def VarSortOk (F : List (String × List String)) (k : String) (d : List String) : Prop :=
  StrSorted d ∨ ∃ qn, (∃ d', (qn, d') ∈ F) ∧ ∃ s, k = qn ++ "." ++ s

/-- The sortedness invariant carried through the analyzer: function lists are
sorted; variable lists are sorted unless the key has the synthesized
parameter shape; `func_params` keys always have a `functions` entry. -/
def SortInv (st : AnState) : Prop :=
  (∀ k d, (k, d) ∈ st.functions → StrSorted d) ∧
  (∀ k d, (k, d) ∈ st.variables_ → VarSortOk st.functions k d) ∧
  (∀ k ps, (k, ps) ∈ st.funcParams → ∃ d', (k, d') ∈ st.functions)

/-- The fixed-point property of the kind-less deletion expansion. -/
def isFixedDel (ng : SymbolTable) (s : Finset String) : Prop :=
  (∀ v ds, (v, ds) ∈ ng.variables_ →
    (∃ d ∈ ds, normalizeName d ∈ normSet s) → v ∈ s) ∧
  (∀ f ds, (f, ds) ∈ ng.functions →
    (∃ d ∈ ds, normalizeName d ∈ normSet s) → f ∈ s)

/-- Proof-side measure of the two-kind expansion: table keys not yet
affected.  Each continuing pass strictly decreases it. -/
def measureImp (fg : SymbolTable) (s : Finset String × Finset String) : Nat :=
  ((fg.variables_.map Prod.fst).toFinset \ s.1).card +
    ((fg.functions.map Prod.fst).toFinset \ s.2).card

/-- Proof-side measure of the kind-less deletion expansion. -/
def measureDel (ng : SymbolTable) (s : Finset String) : Nat :=
  (((ng.variables_.map Prod.fst).toFinset ∪ (ng.functions.map Prod.fst).toFinset) \ s).card

/-! ## Theorems -/

/-! ### Basic lemmas about the sorting and dict helpers -/

theorem charListLe_total : ∀ a b : List Char, charListLe a b = true ∨ charListLe b a = true
  | [], _ => by left; rfl
  | _ :: _, [] => by right; rfl
  | a :: as, b :: bs => by
    by_cases h1 : a.toNat < b.toNat
    · left; simp [charListLe, h1]
    · by_cases h2 : b.toNat < a.toNat
      · right; simp [charListLe, h1, h2]
      · have := charListLe_total as bs
        rcases this with h | h
        · left; simpa [charListLe, h1, h2] using h
        · right; simpa [charListLe, h1, h2] using h

theorem charListLe_trans : ∀ a b c : List Char,
    charListLe a b = true → charListLe b c = true → charListLe a c = true
  | [], _, _ => by intro _ _; rfl
  | _ :: _, [], _ => by intro h _; simp [charListLe] at h
  | _ :: _, _ :: _, [] => by intro _ h; simp [charListLe] at h
  | a :: as, b :: bs, c :: cs => by
    intro h1 h2
    simp only [charListLe] at h1 h2 ⊢
    by_cases g1 : a.toNat < b.toNat
    · by_cases g2 : b.toNat < c.toNat
      · rw [if_pos (show a.toNat < c.toNat by omega)]
      · by_cases g3 : c.toNat < b.toNat
        · rw [if_neg g2, if_pos g3] at h2
          exact absurd h2 (by simp)
        · rw [if_pos (show a.toNat < c.toNat by omega)]
    · by_cases g4 : b.toNat < a.toNat
      · rw [if_neg g1, if_pos g4] at h1
        exact absurd h1 (by simp)
      · rw [if_neg g1, if_neg g4] at h1
        by_cases g2 : b.toNat < c.toNat
        · rw [if_pos (show a.toNat < c.toNat by omega)]
        · by_cases g3 : c.toNat < b.toNat
          · rw [if_neg g2, if_pos g3] at h2
            exact absurd h2 (by simp)
          · rw [if_neg g2, if_neg g3] at h2
            rw [if_neg (show ¬ a.toNat < c.toNat by omega),
              if_neg (show ¬ c.toNat < a.toNat by omega)]
            exact charListLe_trans as bs cs h1 h2

theorem strLe_total (a b : String) : strLe a b = true ∨ strLe b a = true :=
  charListLe_total a.data b.data

theorem strLe_trans {a b c : String} (h1 : strLe a b = true) (h2 : strLe b c = true) :
    strLe a c = true :=
  charListLe_trans a.data b.data c.data h1 h2

theorem mem_insortStr (y x : String) : ∀ (l : List String),
    y ∈ insortStr x l → y = x ∨ y ∈ l
  | [], h => by
    simp only [insortStr, List.mem_singleton] at h
    exact Or.inl h
  | z :: zs, h => by
    by_cases hle : strLe x z = true
    · simp only [insortStr, if_pos hle] at h
      exact List.mem_cons.mp h
    · simp only [insortStr, if_neg hle] at h
      rcases List.mem_cons.mp h with h | h
      · exact Or.inr (by simp [h])
      · rcases mem_insortStr y x zs h with h | h
        · exact Or.inl h
        · exact Or.inr (List.mem_cons_of_mem z h)

theorem mem_insortStr_of_mem (y x : String) : ∀ (l : List String),
    y = x ∨ y ∈ l → y ∈ insortStr x l
  | [], h => by
    rcases h with h | h
    · simp [insortStr, h]
    · simp at h
  | z :: zs, h => by
    by_cases hle : strLe x z = true
    · simp only [insortStr, if_pos hle]
      rcases h with h | h
      · simp [h]
      · simp [h]
    · simp only [insortStr, if_neg hle]
      rcases h with h | h
      · exact List.mem_cons_of_mem z (mem_insortStr_of_mem y x zs (Or.inl h))
      · rcases List.mem_cons.mp h with h | h
        · simp [h]
        · exact List.mem_cons_of_mem z (mem_insortStr_of_mem y x zs (Or.inr h))

theorem pairwise_insortStr (x : String) : ∀ (l : List String),
    l.Pairwise (fun a b => strLe a b = true) →
    (insortStr x l).Pairwise (fun a b => strLe a b = true)
  | [], _ => by simp [insortStr]
  | z :: zs, h => by
    rw [List.pairwise_cons] at h
    by_cases hle : strLe x z = true
    · simp only [insortStr, if_pos hle]
      rw [List.pairwise_cons]
      refine ⟨?_, List.pairwise_cons.mpr h⟩
      intro w hw
      rcases List.mem_cons.mp hw with hw | hw
      · subst hw; exact hle
      · exact strLe_trans hle (h.1 w hw)
    · simp only [insortStr, if_neg hle]
      rw [List.pairwise_cons]
      refine ⟨?_, pairwise_insortStr x zs h.2⟩
      intro w hw
      rcases mem_insortStr w x zs hw with hw | hw
      · rw [hw]
        rcases strLe_total x z with ht | ht
        · exact absurd ht hle
        · exact ht
      · exact h.1 w hw

theorem strSorted_sortStrs : ∀ l : List String, StrSorted (sortStrs l)
  | [] => by simp [sortStrs, StrSorted]
  | x :: xs => pairwise_insortStr x (sortStrs xs) (strSorted_sortStrs xs)

theorem mem_sortStrs_of_mem {y : String} : ∀ {l : List String}, y ∈ l → y ∈ sortStrs l
  | [], h => by simp at h
  | x :: xs, h => by
    have hrw : sortStrs (x :: xs) = insortStr x (sortStrs xs) := rfl
    rw [hrw]
    rcases List.mem_cons.mp h with h | h
    · exact mem_insortStr_of_mem y x (sortStrs xs) (Or.inl h)
    · exact mem_insortStr_of_mem y x (sortStrs xs) (Or.inr (mem_sortStrs_of_mem h))

theorem mem_setAdd {y x : String} {l : List String} :
    y ∈ setAdd l x ↔ y ∈ l ∨ y = x := by
  unfold setAdd
  split_ifs with h
  · constructor
    · exact Or.inl
    · rintro (hy | hy)
      · exact hy
      · subst hy; exact h
  · simp [List.mem_append]

theorem mem_setOfList_aux (y : String) : ∀ (l acc : List String),
    (y ∈ l.foldl setAdd acc ↔ y ∈ acc ∨ y ∈ l)
  | [], acc => by simp
  | x :: xs, acc => by
    rw [List.foldl_cons, mem_setOfList_aux y xs (setAdd acc x), mem_setAdd]
    constructor
    · rintro ((h | h) | h)
      · exact Or.inl h
      · subst h; exact Or.inr (by simp)
      · exact Or.inr (by simp [h])
    · rintro (h | h)
      · exact Or.inl (Or.inl h)
      · rcases List.mem_cons.mp h with h | h
        · exact Or.inl (Or.inr h)
        · exact Or.inr h

theorem mem_setOfList {y : String} {l : List String} : y ∈ setOfList l ↔ y ∈ l := by
  unfold setOfList
  rw [mem_setOfList_aux]
  simp

theorem mem_sortDeps_of_mem {y : String} {l : List String} (h : y ∈ l) :
    y ∈ sortDeps l := mem_sortStrs_of_mem h

theorem strSorted_sortDeps (l : List String) : StrSorted (sortDeps l) :=
  strSorted_sortStrs l

theorem lookup_map_set (k : String) (v : α) : ∀ (m : List (String × α)) (k' : String),
    (m.map (fun p => if p.1 = k then (p.1, v) else p)).lookup k' =
      (m.lookup k').map (fun w => if k' = k then v else w)
  | [], _ => by simp
  | (pk, pv) :: rest, k' => by
    have hhead : ((fun (p : String × α) => if p.1 = k then (p.1, v) else p) (pk, pv)) =
        (pk, if pk = k then v else pv) := by
      by_cases hpk : pk = k <;> simp [hpk]
    simp only [List.map_cons, hhead, List.lookup_cons]
    cases hb : (k' == pk) with
    | true =>
      have hk : k' = pk := beq_iff_eq.mp hb
      subst hk
      simp
    | false =>
      exact lookup_map_set k v rest k'

theorem lookup_map_push (k dep : String) :
    ∀ (m : List (String × List String)) (k' : String),
    (m.map (fun p => if p.1 = k then (p.1, p.2 ++ [dep]) else p)).lookup k' =
      (m.lookup k').map (fun w => if k' = k then w ++ [dep] else w)
  | [], _ => by simp
  | (pk, pv) :: rest, k' => by
    have hhead : ((fun (p : String × List String) =>
        if p.1 = k then (p.1, p.2 ++ [dep]) else p) (pk, pv)) =
        (pk, if pk = k then pv ++ [dep] else pv) := by
      by_cases hpk : pk = k <;> simp [hpk]
    simp only [List.map_cons, hhead, List.lookup_cons]
    cases hb : (k' == pk) with
    | true =>
      have hk : k' = pk := beq_iff_eq.mp hb
      subst hk
      simp
    | false =>
      exact lookup_map_push k dep rest k'

theorem lookup_alistSet_self (m : List (String × α)) (k : String) (v : α) :
    (alistSet m k v).lookup k = some v := by
  unfold alistSet
  split_ifs with h
  · rw [lookup_map_set]
    obtain ⟨w, hw⟩ := Option.isSome_iff_exists.mp h
    simp [hw]
  · rw [List.lookup_append]
    have hn : m.lookup k = none := Option.not_isSome_iff_eq_none.mp h
    simp [hn, List.lookup_cons]

theorem lookup_alistSet_ne (m : List (String × α)) (k : String) (v : α)
    (k' : String) (h : k' ≠ k) : (alistSet m k v).lookup k' = m.lookup k' := by
  unfold alistSet
  split_ifs with hs
  · rw [lookup_map_set]
    cases hm : m.lookup k' <;> simp [h]
  · rw [List.lookup_append]
    cases hm : m.lookup k' <;>
      simp [List.lookup_cons, beq_eq_false_iff_ne.mpr h]

theorem lookup_appendDep_ne (m : List (String × List String)) (k dep k' : String)
    (h : k' ≠ k) : (appendDep m k dep).lookup k' = m.lookup k' := by
  unfold appendDep
  split_ifs with hs
  · rw [lookup_map_push]
    cases hm : m.lookup k' <;> simp [h]
  · rw [List.lookup_append]
    cases hm : m.lookup k' <;>
      simp [List.lookup_cons, beq_eq_false_iff_ne.mpr h]

theorem mem_lookup_appendDep_self (m : List (String × List String)) (k dep : String) :
    dep ∈ ((appendDep m k dep).lookup k).getD [] := by
  unfold appendDep
  split_ifs with hs
  · rw [lookup_map_push]
    obtain ⟨w, hw⟩ := Option.isSome_iff_exists.mp hs
    simp [hw]
  · rw [List.lookup_append]
    have hn : m.lookup k = none := Option.not_isSome_iff_eq_none.mp hs
    simp [hn, List.lookup_cons]

theorem mem_lookup_appendDep_mono (m : List (String × List String))
    (k0 dep' k d : String) (h : d ∈ (m.lookup k).getD []) :
    d ∈ ((appendDep m k0 dep').lookup k).getD [] := by
  by_cases hk : k = k0
  · subst hk
    unfold appendDep
    split_ifs with hs
    · rw [lookup_map_push]
      obtain ⟨w, hw⟩ := Option.isSome_iff_exists.mp hs
      rw [hw] at h
      simp only [hw, Option.map_some', if_pos rfl, Option.getD_some] at h ⊢
      exact List.mem_append_left _ h
    · have hn : m.lookup k = none := Option.not_isSome_iff_eq_none.mp hs
      rw [hn] at h
      simp at h
  · rw [lookup_appendDep_ne m k0 dep' k hk]
    exact h

theorem mem_alistSet_elim {m : List (String × α)} {k : String} {v : α}
    {a : String} {b : α} (h : (a, b) ∈ alistSet m k v) :
    (a = k ∧ b = v) ∨ (a, b) ∈ m := by
  unfold alistSet at h
  split_ifs at h with hs
  · obtain ⟨p, hp, he⟩ := List.mem_map.mp h
    by_cases hpk : p.1 = k
    · rw [if_pos hpk] at he
      obtain ⟨h1, h2⟩ := Prod.mk.injEq _ _ _ _ ▸ he
      left
      exact ⟨h1 ▸ hpk, h2.symm⟩
    · rw [if_neg hpk] at he
      right
      rw [← he]
      exact hp
  · rcases List.mem_append.mp h with h | h
    · right; exact h
    · left
      simp only [List.mem_singleton, Prod.mk.injEq] at h
      exact h

theorem mem_appendDep_elim {m : List (String × List String)} {k dep : String}
    {a : String} {b : List String} (h : (a, b) ∈ appendDep m k dep) :
    a = k ∨ (a, b) ∈ m := by
  unfold appendDep at h
  split_ifs at h with hs
  · obtain ⟨p, hp, he⟩ := List.mem_map.mp h
    by_cases hpk : p.1 = k
    · rw [if_pos hpk] at he
      left
      obtain ⟨h1, _⟩ := Prod.mk.injEq _ _ _ _ ▸ he
      exact h1 ▸ hpk
    · rw [if_neg hpk] at he
      right
      rw [← he]
      exact hp
  · rcases List.mem_append.mp h with h | h
    · right; exact h
    · left
      simp only [List.mem_singleton, Prod.mk.injEq] at h
      exact h.1

theorem exists_mem_alistSet_of_mem {m : List (String × α)} {k : String} {v : α}
    {a : String} {b : α} (h : (a, b) ∈ m) : ∃ b', (a, b') ∈ alistSet m k v := by
  unfold alistSet
  split_ifs with hs
  · by_cases hak : a = k
    · refine ⟨v, List.mem_map.mpr ⟨(a, b), h, ?_⟩⟩
      simp [hak]
    · refine ⟨b, List.mem_map.mpr ⟨(a, b), h, ?_⟩⟩
      simp [hak]
  · exact ⟨b, List.mem_append_left _ h⟩

theorem lookup_mem {m : List (String × α)} {k : String} {v : α}
    (h : m.lookup k = some v) : (k, v) ∈ m := by
  obtain ⟨l1, l2, rfl, _⟩ := List.lookup_eq_some_iff.mp h
  simp

theorem lookup_split {m : List (String × α)} {k : String} {v : α}
    (h : m.lookup k = some v) :
    ∃ pre post, m = pre ++ (k, v) :: post ∧ pre.lookup k = none := by
  obtain ⟨l1, l2, hm, hne⟩ := List.lookup_eq_some_iff.mp h
  exact ⟨l1, l2, hm, List.lookup_eq_none_iff.mpr hne⟩

/-! ### Claim C8: extraction degrades to the empty table and never raises -/

/-- C8: for every input path, `build_full_graph_for_file` never raises to its
caller (it is a total function of its input); if the path does not exist or
its content fails to parse, it returns the empty SymbolTable. -/
theorem claim_C8_extraction_total_on_failure (fileName : String)
    (builtinNames : List String) (inp : FileInput)
    (h : inp = .missing ∨ inp = .unparsable) :
    build_full_graph_for_file fileName builtinNames inp = ⟨[], []⟩ := by
  rcases h with h | h <;> subst h <;> rfl

/-- Witness for C8 at a concrete missing path. -/
theorem claim_C8_extraction_total_on_failure_witness :
    (FileInput.missing = FileInput.missing ∨ FileInput.missing = FileInput.unparsable) ∧
      build_full_graph_for_file "test1" ["print"] .missing = ⟨[], []⟩ :=
  ⟨Or.inl rfl, claim_C8_extraction_total_on_failure "test1" ["print"] .missing (Or.inl rfl)⟩

/-! ### Claim C6: when is the changed-line set empty? -/

/-- C6 counterexample: deleting the last line produces an *empty* changed set
even though the content changed (a line was removed), so "changed-set empty
iff content unchanged" fails as stated. -/
theorem claim_C6_counterexample :
    get_changed_lines ["a", "b"] ["a"] = [] ∧ ¬ unchangedSpec ["a", "b"] ["a"] := by
  constructor
  · decide
  · intro h
    exact absurd h.1 (by decide)

/-- C6 (amended): the changed-line set is empty iff no current line's trimmed
text differs from the old line at the same index and no lines were added
(`current` is no longer than `old`); removal of trailing lines is *not*
detected, so "no lines removed" cannot be part of the equivalence. -/
theorem claim_C6_changed_lines_empty_iff (old_lines current_lines : List String) :
    get_changed_lines old_lines current_lines = [] ↔
      (current_lines.length ≤ old_lines.length ∧
        ∀ i, i < current_lines.length →
          pyStrip (current_lines.getD i "") = pyStrip (old_lines.getD i "")) := by
  unfold get_changed_lines
  rw [List.filterMap_eq_nil_iff]
  constructor
  · intro h
    have key : ∀ i, i < current_lines.length →
        i < old_lines.length ∧
          pyStrip (current_lines.getD i "") = pyStrip (old_lines.getD i "") := by
      intro i hi
      have hmem := h i (List.mem_range.mpr hi)
      by_cases hc : old_lines.length ≤ i ∨
          pyStrip (current_lines.getD i "") ≠ pyStrip (old_lines.getD i "")
      · rw [if_pos hc] at hmem
        exact absurd hmem (by simp)
      · push_neg at hc
        exact ⟨by omega, hc.2⟩
    constructor
    · by_contra hlt
      push_neg at hlt
      exact absurd ((key old_lines.length hlt).1) (lt_irrefl _)
    · intro i hi
      exact (key i hi).2
  · rintro ⟨hlen, heq⟩ i hi
    have hi' := List.mem_range.mp hi
    have hcond : ¬ (old_lines.length ≤ i ∨
        pyStrip (current_lines.getD i "") ≠ pyStrip (old_lines.getD i "")) := by
      push_neg
      exact ⟨by omega, heq i hi'⟩
    rw [if_neg hcond]


/-! ### Decomposing `qualify` -/

theorem str_append_assoc (a b c : String) : (a ++ b) ++ c = a ++ (b ++ c) := by
  apply String.ext
  simp [String.data_append, List.append_assoc]

theorem dotJoin_append_last : ∀ (x : String) (xs : List String) (a : String),
    dotJoin ((x :: xs) ++ [a]) = dotJoin (x :: xs) ++ "." ++ a
  | _, [], _ => rfl
  | x, y :: ys, a => by
    have ih := dotJoin_append_last y ys a
    show x ++ "." ++ dotJoin ((y :: ys) ++ [a]) = (x ++ "." ++ dotJoin (y :: ys)) ++ "." ++ a
    rw [ih]
    apply String.ext
    simp [String.data_append, List.append_assoc]

/-- `qualify` splits as the joined scope chain followed by the local name. -/
theorem qualify_eq (fileName : String) (st : AnState) (name : String) :
    qualify fileName st name =
      dotJoin (fileName :: (st.currentClass ++ st.currentFunc)) ++ "." ++ name := by
  unfold qualify
  have hl : fileName :: (st.currentClass ++ st.currentFunc ++ [name]) =
      (fileName :: (st.currentClass ++ st.currentFunc)) ++ [name] := by simp
  rw [hl, dotJoin_append_last]

/-! ### Claim C3: function dependencies contain the qualified parameters -/

theorem paramInv_of_fields {st st' : AnState} (hf : st'.funcParams = st.funcParams)
    (hg : st'.functions = st.functions) (h : ParamInv st) : ParamInv st' := by
  intro qn ps hq
  rw [hf] at hq
  obtain ⟨Q, nm, deps, h1, h2, h3⟩ := h qn ps hq
  exact ⟨Q, nm, deps, h1, by rw [hg]; exact h2, h3⟩

/-- Registering one function definition preserves the invariant. -/
theorem paramInv_register (fileName : String) (st0 : AnState) (name : String)
    (args : List String) (depsL : List String)
    (hdeps : ∀ p ∈ args, qualify fileName st0 p ∈ depsL)
    (h : ParamInv st0) :
    ParamInv { st0 with
      funcParams := alistSet st0.funcParams (qualify fileName st0 name) args,
      functions := alistSet st0.functions (qualify fileName st0 name) depsL } := by
  intro qn ps hq
  dsimp only at hq ⊢
  by_cases hqn : qn = qualify fileName st0 name
  · subst hqn
    rw [lookup_alistSet_self] at hq
    have hps := Option.some_injective _ hq
    subst hps
    refine ⟨dotJoin (fileName :: (st0.currentClass ++ st0.currentFunc)), name, depsL,
      qualify_eq fileName st0 name, lookup_alistSet_self _ _ _, ?_⟩
    intro p hp
    rw [← qualify_eq fileName st0 p]
    exact hdeps p hp
  · rw [lookup_alistSet_ne _ _ _ _ hqn] at hq
    obtain ⟨Q, nm, deps, h1, h2, h3⟩ := h qn ps hq
    refine ⟨Q, nm, deps, h1, ?_, h3⟩
    rw [lookup_alistSet_ne _ _ _ _ hqn]
    exact h2

mutual

theorem paramInv_visitStmt (fileName : String) (bn : List String) :
    ∀ (s : PStmt) (st : AnState), ParamInv st → ParamInv (visitStmt fileName bn s st)
  | .assign _ _, _, h => h
  | .functionDef name args body, st, h =>
    let st0 : AnState := { st with currentFunc := st.currentFunc ++ [name] }
    let qN := qualify fileName st0 name
    let depsL := sortDeps (setOfList
      ((((stmtsWalkNames body).filter (fun i => !(bn.contains i))).map
          (qualify fileName st0)) ++
        args.map (qualify fileName st0)))
    let st1 : AnState := { st0 with
      funcParams := alistSet st0.funcParams qN args,
      functions := alistSet st0.functions qN depsL }
    @paramInv_of_fields (visitStmts fileName bn body st1)
      (visitStmt fileName bn (.functionDef name args body) st) rfl rfl
      (paramInv_visitStmts fileName bn body st1
        (paramInv_register fileName st0 name args depsL
          (fun _p hp => mem_sortDeps_of_mem (mem_setOfList.mpr
            (List.mem_append_right _ (List.mem_map_of_mem _ hp))))
          (@paramInv_of_fields st st0 rfl rfl h)))
  | .classDef name body, st, h =>
    let st0 : AnState := { st with currentClass := st.currentClass ++ [name] }
    @paramInv_of_fields (visitStmts fileName bn body st0)
      (visitStmt fileName bn (.classDef name body) st) rfl rfl
      (paramInv_visitStmts fileName bn body st0 (@paramInv_of_fields st st0 rfl rfl h))
  | .ret _, _, h => h
  | .exprStmt _, _, h => h
  | .pass, _, h => h

theorem paramInv_visitStmts (fileName : String) (bn : List String) :
    ∀ (b : PBody) (st : AnState), ParamInv st → ParamInv (visitStmts fileName bn b st)
  | .nil, _, h => h
  | .cons s rest, st, h =>
    paramInv_visitStmts fileName bn rest _ (paramInv_visitStmt fileName bn s st h)

end

/-- C3: for every parseable input file and every function definition in it
with parameter list `ps` (every entry of the analyzer's `func_params`), the
extracted SymbolTable's entry for that function exists and its `depends_on`
list contains every parameter qualified under the function's own scope
(`Q ++ "." ++ p` where the function's key is `Q ++ "." ++ nm`). -/
theorem claim_C3_function_deps_superset_of_params (fileName : String)
    (builtinNames : List String) (tree : PBody) (qn : String) (ps : List String)
    (h : (visitStmts fileName builtinNames tree initAnState).funcParams.lookup qn = some ps) :
    ∃ Q nm deps, qn = Q ++ "." ++ nm ∧
      (build_full_graph_for_file fileName builtinNames (.parsed tree)).functions.lookup qn
        = some deps ∧
      ∀ p ∈ ps, (Q ++ "." ++ p) ∈ deps := by
  have base : ParamInv initAnState := by
    intro qn ps hq
    simp [initAnState] at hq
  exact paramInv_visitStmts fileName builtinNames tree initAnState base qn ps h

/-- Witness for C3: the file `def f(p): return x + 1` registers `t.f.f` with
parameter list `["p"]`, and the extracted entry contains `t.f.p`. -/
theorem claim_C3_function_deps_superset_of_params_witness :
    ((visitStmts "t" [] (PBody.ofList
        [.functionDef "f" ["p"] (PBody.ofList [.ret (.binop (.name "x") .const)])])
        initAnState).funcParams.lookup "t.f.f" = some ["p"]) ∧
    (∃ Q nm deps, "t.f.f" = Q ++ "." ++ nm ∧
      (build_full_graph_for_file "t" [] (.parsed (PBody.ofList
        [.functionDef "f" ["p"]
          (PBody.ofList [.ret (.binop (.name "x") .const)])]))).functions.lookup "t.f.f"
        = some deps ∧
      ∀ p ∈ ["p"], (Q ++ "." ++ p) ∈ deps) :=
  ⟨by decide,
   claim_C3_function_deps_superset_of_params "t" [] _ "t.f.f" ["p"] (by decide)⟩


/-! ### Claim C9: which dependency lists are sorted -/

theorem foldl_preserve {β γ : Type} {P : β → Prop} (f : β → γ → β) :
    ∀ (l : List γ) (b : β), P b → (∀ x ∈ l, ∀ b', P b' → P (f b' x)) → P (l.foldl f b)
  | [], _, hb, _ => hb
  | x :: xs, b, hb, hstep =>
    foldl_preserve f xs (f b x) (hstep x (by simp) b hb)
      (fun y hy => hstep y (List.mem_cons_of_mem _ hy))

theorem varSortOk_appendDep {F vars} {q param arg : String}
    (hq : ∃ d', (q, d') ∈ F)
    (h : ∀ k d, (k, d) ∈ vars → VarSortOk F k d) :
    ∀ k d, (k, d) ∈ appendDep vars (q ++ "." ++ param) arg → VarSortOk F k d := by
  intro k d hm
  rcases mem_appendDep_elim hm with hk | hk
  · exact Or.inr ⟨q, hq, param, hk⟩
  · exact h k d hk

theorem varSortOk_alistSet {F vars} {k0 : String} {v : List String}
    (hv : StrSorted v)
    (h : ∀ k d, (k, d) ∈ vars → VarSortOk F k d) :
    ∀ k d, (k, d) ∈ alistSet vars k0 v → VarSortOk F k d := by
  intro k d hm
  rcases mem_alistSet_elim hm with ⟨_, hd⟩ | hk
  · exact Or.inl (hd ▸ hv)
  · exact h k d hk

/-- The argument loop of `visit_Assign` preserves sort-safety of the
variables table (all its writes are appends at synthesized parameter keys). -/
theorem varSortOk_propagateArgs (fileName : String) (st : AnState)
    (funcName : String) (args : List PExpr) (acc : List String × List (String × List String))
    (hfp : ∀ k ps, (k, ps) ∈ st.funcParams → ∃ d', (k, d') ∈ st.functions)
    (hacc : ∀ k d, (k, d) ∈ acc.2 → VarSortOk st.functions k d) :
    ∀ k d, (k, d) ∈ (propagateArgs fileName st funcName args acc).2 →
      VarSortOk st.functions k d := by
  unfold propagateArgs
  have main := foldl_preserve
    (P := fun (a : List String × List (String × List String)) =>
      ∀ k d, (k, d) ∈ a.2 → VarSortOk st.functions k d)
    (fun a arg =>
      match arg with
      | .name aid =>
        let argName := qualify fileName st aid
        let vars' := st.funcParams.foldl (fun vs fp =>
          if endswith fp.1 ("." ++ funcName) then
            fp.2.foldl (fun vs2 param => appendDep vs2 (fp.1 ++ "." ++ param) argName) vs
          else vs) a.2
        (setAdd a.1 argName, vars')
      | _ => a)
    args acc hacc ?_
  · exact main
  · intro arg _ a ha
    match arg with
    | .attr _ _ => exact ha
    | .call _ _ => exact ha
    | .const => exact ha
    | .binop _ _ => exact ha
    | .name aid =>
      intro k d hm
      refine foldl_preserve
        (P := fun (vs : List (String × List String)) =>
          ∀ k d, (k, d) ∈ vs → VarSortOk st.functions k d)
        _ st.funcParams a.2 ha ?_ k d hm
      intro fp hfpmem vs hvs
      by_cases hend : endswith fp.1 ("." ++ funcName)
      · rw [if_pos hend]
        refine foldl_preserve
          (P := fun (vs2 : List (String × List String)) =>
            ∀ k d, (k, d) ∈ vs2 → VarSortOk st.functions k d)
          _ fp.2 vs hvs ?_
        intro param _ vs2 hvs2
        exact varSortOk_appendDep (hfp fp.1 fp.2 hfpmem) hvs2
      · rw [if_neg hend]
        exact hvs

theorem varSortOk_processTarget (fileName : String) (st : AnState) (value : PExpr)
    (hfp : ∀ k ps, (k, ps) ∈ st.funcParams → ∃ d', (k, d') ∈ st.functions) :
    ∀ (tgt : PExpr) (vars : List (String × List String)),
    (∀ k d, (k, d) ∈ vars → VarSortOk st.functions k d) →
    ∀ k d, (k, d) ∈ processTarget fileName st value vars tgt →
      VarSortOk st.functions k d := by
  intro tgt vars hvars
  match tgt with
  | .attr _ _ => exact hvars
  | .call _ _ => exact hvars
  | .const => exact hvars
  | .binop _ _ => exact hvars
  | .name varName =>
    match value with
    | .call (.name funcName) args =>
      exact varSortOk_alistSet (strSorted_sortDeps _)
        (varSortOk_propagateArgs fileName st funcName args.toList _ hfp hvars)
    | .call (.attr b attrName) cargs =>
      exact varSortOk_alistSet (strSorted_sortDeps _) hvars
    | .call (.call cf cas) cargs =>
      exact varSortOk_alistSet (strSorted_sortDeps _) hvars
    | .call .const cargs =>
      exact varSortOk_alistSet (strSorted_sortDeps _) hvars
    | .call (.binop bl br) cargs =>
      exact varSortOk_alistSet (strSorted_sortDeps _) hvars
    | .name _ =>
      exact varSortOk_alistSet (strSorted_sortDeps _) hvars
    | .attr _ _ =>
      exact varSortOk_alistSet (strSorted_sortDeps _) hvars
    | .const =>
      exact varSortOk_alistSet (strSorted_sortDeps _) hvars
    | .binop _ _ =>
      exact varSortOk_alistSet (strSorted_sortDeps _) hvars

mutual

theorem sortInv_visitStmt (fileName : String) (bn : List String) :
    ∀ (s : PStmt) (st : AnState), SortInv st → SortInv (visitStmt fileName bn s st)
  | .assign tgts value, st, h => by
    refine ⟨h.1, ?_, h.2.2⟩
    show ∀ k d, (k, d) ∈ tgts.foldl (processTarget fileName st value) st.variables_ →
      VarSortOk st.functions k d
    intro k d hm
    refine foldl_preserve
      (P := fun (vars : List (String × List String)) =>
        ∀ k d, (k, d) ∈ vars → VarSortOk st.functions k d)
      _ tgts st.variables_ h.2.1 ?_ k d hm
    intro tgt _ vars hvars
    exact varSortOk_processTarget fileName st value h.2.2 tgt vars hvars
  | .functionDef name args body, st, h =>
    let st0 : AnState := { st with currentFunc := st.currentFunc ++ [name] }
    let qN := qualify fileName st0 name
    let depsL := sortDeps (setOfList
      ((((stmtsWalkNames body).filter (fun i => !(bn.contains i))).map
          (qualify fileName st0)) ++
        args.map (qualify fileName st0)))
    let st1 : AnState := { st0 with
      funcParams := alistSet st0.funcParams qN args,
      functions := alistSet st0.functions qN depsL }
    have h1 : SortInv st1 := by
      refine ⟨?_, ?_, ?_⟩
      · intro k d hm
        rcases mem_alistSet_elim hm with ⟨_, hd⟩ | hk
        · exact hd ▸ strSorted_sortDeps _
        · exact h.1 k d hk
      · intro k d hm
        rcases h.2.1 k d hm with hs | ⟨qn, ⟨d', hd'⟩, s, hks⟩
        · exact Or.inl hs
        · exact Or.inr ⟨qn, exists_mem_alistSet_of_mem hd', s, hks⟩
      · intro k ps hm
        rcases mem_alistSet_elim hm with ⟨hk, _⟩ | hk
        · subst hk
          exact ⟨depsL, lookup_mem (lookup_alistSet_self _ _ _)⟩
        · obtain ⟨d', hd'⟩ := h.2.2 k ps hk
          exact exists_mem_alistSet_of_mem hd'
    have h2 : SortInv (visitStmts fileName bn body st1) :=
      sortInv_visitStmts fileName bn body st1 h1
    ⟨h2.1, h2.2.1, h2.2.2⟩
  | .classDef name body, st, h =>
    let st0 : AnState := { st with currentClass := st.currentClass ++ [name] }
    have h2 : SortInv (visitStmts fileName bn body st0) :=
      sortInv_visitStmts fileName bn body st0 ⟨h.1, h.2.1, h.2.2⟩
    ⟨h2.1, h2.2.1, h2.2.2⟩
  | .ret _, _, h => h
  | .exprStmt _, _, h => h
  | .pass, _, h => h

theorem sortInv_visitStmts (fileName : String) (bn : List String) :
    ∀ (b : PBody) (st : AnState), SortInv st → SortInv (visitStmts fileName bn b st)
  | .nil, _, h => h
  | .cons s rest, st, h =>
    sortInv_visitStmts fileName bn rest _ (sortInv_visitStmt fileName bn s st h)

end

/-- C9 counterexample: in `def f(p, q): pass` followed by `y = f(b, a)`, the
synthesized parameter entry `t.f.f.p` carries `["t.b", "t.a"]`, which is not
sorted — so "every dependency list, including synthesized entries, is
sorted" fails as stated. -/
theorem claim_C9_counterexample :
    ("t.f.f.p", ["t.b", "t.a"]) ∈ (build_full_graph_for_file "t" []
      (.parsed (PBody.ofList
        [.functionDef "f" ["p", "q"] (PBody.ofList [.pass]),
         .assign [.name "y"]
           (.call (.name "f") (.cons (.name "b") (.cons (.name "a") .nil)))]))).variables_ ∧
    ¬ StrSorted ["t.b", "t.a"] := by
  constructor
  · decide
  · intro h
    have := (List.pairwise_cons.mp h).1 "t.a" (by simp)
    exact absurd this (by decide)

/-- C9 (amended): every `functions` dependency list is sorted ascending, and
every `variables` dependency list is sorted ascending unless its key extends
a function's qualified name by `"." ++ s` — the shape written by
argument-to-parameter synthesis, which appends in argument order and need
not be sorted (see the counterexample). -/
theorem claim_C9_sorted_dependency_lists (fileName : String)
    (builtinNames : List String) (tree : PBody) :
    (∀ k d, (k, d) ∈ (build_full_graph_for_file fileName builtinNames
        (.parsed tree)).functions → StrSorted d) ∧
    (∀ k d, (k, d) ∈ (build_full_graph_for_file fileName builtinNames
        (.parsed tree)).variables_ →
      (∀ qn, (∃ d', (qn, d') ∈ (build_full_graph_for_file fileName builtinNames
        (.parsed tree)).functions) → ∀ s, k ≠ qn ++ "." ++ s) →
      StrSorted d) := by
  have base : SortInv initAnState := by
    refine ⟨?_, ?_, ?_⟩ <;> intro k d hm <;> simp [initAnState] at hm
  have hinv := sortInv_visitStmts fileName builtinNames tree initAnState base
  refine ⟨hinv.1, ?_⟩
  intro k d hm hno
  rcases hinv.2.1 k d hm with hs | ⟨qn, hqn, s, hks⟩
  · exact hs
  · exact absurd hks (hno qn hqn s)

/-- Witness for C9 (amended) at the counterexample file: the non-synthesized
entry `t.y` is sorted. -/
theorem claim_C9_sorted_dependency_lists_witness :
    (("t.y", ["t.a", "t.b", "t.f"]) ∈ (build_full_graph_for_file "t" []
      (.parsed (PBody.ofList
        [.functionDef "f" ["p", "q"] (PBody.ofList [.pass]),
         .assign [.name "y"]
           (.call (.name "f") (.cons (.name "b") (.cons (.name "a") .nil)))]))).variables_) ∧
    StrSorted ["t.a", "t.b", "t.f"] := by
  refine ⟨by decide, ?_⟩
  refine (claim_C9_sorted_dependency_lists "t" [] (PBody.ofList
        [.functionDef "f" ["p", "q"] (PBody.ofList [.pass]),
         .assign [.name "y"]
           (.call (.name "f") (.cons (.name "b") (.cons (.name "a") .nil)))])).2
    "t.y" ["t.a", "t.b", "t.f"] (by decide) ?_
  intro qn hqn s hk
  have hqn' : qn = "t.f.f" := by
    obtain ⟨d', hd'⟩ := hqn
    rw [show (build_full_graph_for_file "t" []
      (.parsed (PBody.ofList
        [.functionDef "f" ["p", "q"] (PBody.ofList [.pass]),
         .assign [.name "y"]
           (.call (.name "f") (.cons (.name "b") (.cons (.name "a") .nil)))]))).functions =
      [("t.f.f", ["t.f.p", "t.f.q"])] from by decide] at hd'
    exact (Prod.mk.injEq _ _ _ _ ▸ List.mem_singleton.mp hd').1
  subst hqn'
  have hdata := congrArg String.data hk
  simp only [String.data_append] at hdata
  have hlen := congrArg List.length hdata
  simp [String.data_append] at hlen

/-! ### Claim C7: the argument-to-parameter synthesized edge -/

theorem dotCount_append (a b : String) : dotCount (a ++ b) = dotCount a + dotCount b := by
  simp [dotCount, String.data_append]

theorem dotCount_dotJoin_ge : ∀ (x : String) (xs : List String),
    xs.length ≤ dotCount (dotJoin (x :: xs))
  | _, [] => Nat.zero_le _
  | x, y :: ys => by
    have ih := dotCount_dotJoin_ge y ys
    show (y :: ys).length ≤ dotCount (x ++ "." ++ dotJoin (y :: ys))
    rw [dotCount_append, dotCount_append]
    have hdot : dotCount "." = 1 := rfl
    simp only [List.length_cons]
    omega

theorem dotCount_qualify_ge (fileName : String) (st : AnState) (name : String) :
    st.currentClass.length + st.currentFunc.length + 1 ≤
      dotCount (qualify fileName st name) := by
  unfold qualify
  have := dotCount_dotJoin_ge fileName (st.currentClass ++ st.currentFunc ++ [name])
  simpa using this

theorem endswith_append (u v : String) : endswith (u ++ v) v = true := by
  unfold endswith
  rw [String.data_append]
  exact List.isSuffixOf_iff_suffix.mpr (List.suffix_append u.data v.data)

mutual

theorem scope_visitStmt (fileName : String) (bn : List String) :
    ∀ (s : PStmt) (st : AnState),
    (visitStmt fileName bn s st).currentClass = st.currentClass ∧
    (visitStmt fileName bn s st).currentFunc = st.currentFunc
  | .assign _ _, _ => ⟨rfl, rfl⟩
  | .functionDef g gargs gbody, st =>
    let st0 : AnState := { st with currentFunc := st.currentFunc ++ [g] }
    let qN := qualify fileName st0 g
    let depsL := sortDeps (setOfList
      ((((stmtsWalkNames gbody).filter (fun i => !(bn.contains i))).map
          (qualify fileName st0)) ++ gargs.map (qualify fileName st0)))
    let st1 : AnState := { st0 with
      funcParams := alistSet st0.funcParams qN gargs,
      functions := alistSet st0.functions qN depsL }
    ⟨(scope_visitStmts fileName bn gbody st1).1, rfl⟩
  | .classDef g gbody, st =>
    let st0 : AnState := { st with currentClass := st.currentClass ++ [g] }
    ⟨rfl, (scope_visitStmts fileName bn gbody st0).2⟩
  | .ret _, _ => ⟨rfl, rfl⟩
  | .exprStmt _, _ => ⟨rfl, rfl⟩
  | .pass, _ => ⟨rfl, rfl⟩

theorem scope_visitStmts (fileName : String) (bn : List String) :
    ∀ (b : PBody) (st : AnState),
    (visitStmts fileName bn b st).currentClass = st.currentClass ∧
    (visitStmts fileName bn b st).currentFunc = st.currentFunc
  | .nil, _ => ⟨rfl, rfl⟩
  | .cons s rest, st =>
    ⟨((scope_visitStmts fileName bn rest _).1).trans (scope_visitStmt fileName bn s st).1,
     ((scope_visitStmts fileName bn rest _).2).trans (scope_visitStmt fileName bn s st).2⟩

end

mutual

/-- A `func_params` binding whose key has fewer dots than any qualified name
the statement can register survives the statement: every `func_params` write
during the visit uses a key with at least `|class| + |func| + 2` dots. -/
theorem funcParams_lookup_visitStmt (fileName : String) (bn : List String) :
    ∀ (s : PStmt) (st : AnState) (k : String) (ps : List String),
    st.funcParams.lookup k = some ps →
    dotCount k < st.currentClass.length + st.currentFunc.length + 2 →
    (visitStmt fileName bn s st).funcParams.lookup k = some ps
  | .assign _ _, _, _, _, hq, _ => hq
  | .functionDef g gargs gbody, st, k, ps, hq, hb => by
    let st0 : AnState := { st with currentFunc := st.currentFunc ++ [g] }
    let qN := qualify fileName st0 g
    let depsL := sortDeps (setOfList
      ((((stmtsWalkNames gbody).filter (fun i => !(bn.contains i))).map
          (qualify fileName st0)) ++ gargs.map (qualify fileName st0)))
    let st1 : AnState := { st0 with
      funcParams := alistSet st0.funcParams qN gargs,
      functions := alistSet st0.functions qN depsL }
    show (visitStmts fileName bn gbody st1).funcParams.lookup k = some ps
    have e1 : st0.currentClass.length = st.currentClass.length := rfl
    have e2 : st0.currentFunc.length = st.currentFunc.length + 1 := by
      show (st.currentFunc ++ [g]).length = st.currentFunc.length + 1
      simp
    have hne : k ≠ qN := by
      intro he
      have hge : st0.currentClass.length + st0.currentFunc.length + 1 ≤ dotCount qN :=
        dotCount_qualify_ge fileName st0 g
      rw [he] at hb
      omega
    have h1 : st1.funcParams.lookup k = some ps := by
      show (alistSet st0.funcParams qN gargs).lookup k = some ps
      rw [lookup_alistSet_ne _ _ _ _ hne]
      exact hq
    exact funcParams_lookup_visitStmts fileName bn gbody st1 k ps h1 (by
      have e3 : st1.currentClass.length = st.currentClass.length := rfl
      have e4 : st1.currentFunc.length = st.currentFunc.length + 1 := e2
      omega)
  | .classDef g gbody, st, k, ps, hq, hb => by
    let st0 : AnState := { st with currentClass := st.currentClass ++ [g] }
    show (visitStmts fileName bn gbody st0).funcParams.lookup k = some ps
    exact funcParams_lookup_visitStmts fileName bn gbody st0 k ps hq (by
      have e1 : st0.currentClass.length = st.currentClass.length + 1 := by
        show (st.currentClass ++ [g]).length = st.currentClass.length + 1
        simp
      have e2 : st0.currentFunc.length = st.currentFunc.length := rfl
      omega)
  | .ret _, _, _, _, hq, _ => hq
  | .exprStmt _, _, _, _, hq, _ => hq
  | .pass, _, _, _, hq, _ => hq

theorem funcParams_lookup_visitStmts (fileName : String) (bn : List String) :
    ∀ (b : PBody) (st : AnState) (k : String) (ps : List String),
    st.funcParams.lookup k = some ps →
    dotCount k < st.currentClass.length + st.currentFunc.length + 2 →
    (visitStmts fileName bn b st).funcParams.lookup k = some ps
  | .nil, _, _, _, hq, _ => hq
  | .cons s rest, st, k, ps, hq, hb => by
    have h1 := funcParams_lookup_visitStmt fileName bn s st k ps hq hb
    have hsc := scope_visitStmt fileName bn s st
    exact funcParams_lookup_visitStmts fileName bn rest _ k ps h1 (by
      rw [hsc.1, hsc.2]
      exact hb)

end

/-- C7 counterexample: in a file whose assignment `y = f(arg)` precedes the
`def f(p)` definition, `func_params` is still empty when the assignment is
visited, so no parameter key is synthesized at all: the variables table is
exactly `{t.y}` — the claim fails for this file even though it contains a
single-parameter `f` and the assignment. -/
theorem claim_C7_counterexample :
    ((build_full_graph_for_file "t" [] (.parsed (PBody.ofList
      [.assign [.name "y"] (.call (.name "f") (.cons (.name "arg") .nil)),
       .functionDef "f" ["p"] (PBody.ofList [.ret (.binop (.name "x") .const)])]))).variables_
      = [("t.y", ["t.arg", "t.f"])]) ∧
    ∀ k d, (k, d) ∈ (build_full_graph_for_file "t" [] (.parsed (PBody.ofList
      [.assign [.name "y"] (.call (.name "f") (.cons (.name "arg") .nil)),
       .functionDef "f" ["p"] (PBody.ofList [.ret (.binop (.name "x") .const)])]))).variables_ →
      k = "t.y" := by
  refine ⟨by decide, ?_⟩
  intro k d hd
  rw [show (build_full_graph_for_file "t" [] (.parsed (PBody.ofList
      [.assign [.name "y"] (.call (.name "f") (.cons (.name "arg") .nil)),
       .functionDef "f" ["p"] (PBody.ofList [.ret (.binop (.name "x") .const)])]))).variables_
      = [("t.y", ["t.arg", "t.f"])] from by decide] at hd
  exact (Prod.mk.injEq _ _ _ _ ▸ List.mem_singleton.mp hd).1

/-- C7 (amended): when the single-parameter definition `def f(p): body`
precedes the assignment `y = f(arg)` (parameters are registered in document
order), extraction synthesizes the edge: the variables table maps the
qualified parameter `fileName.f.f.p` (the analyzer keys functions as
`fileName.f.f`) to a list containing the qualified argument
`fileName ++ "." ++ arg`.  Names are assumed dot-free as in Python. -/
theorem claim_C7_arg_param_edge_def_first (fileName : String)
    (builtinNames : List String) (f p y arg : String) (body : PBody)
    (hfn : dotCount fileName = 0) (hf : dotCount f = 0) (hp : dotCount p = 0)
    (hy : dotCount y = 0) :
    (fileName ++ "." ++ arg) ∈
      (((build_full_graph_for_file fileName builtinNames (.parsed (PBody.ofList
        [.functionDef f [p] body,
         .assign [.name y] (.call (.name f) (.cons (.name arg) .nil))]))).variables_).lookup
        (fileName ++ "." ++ f ++ "." ++ f ++ "." ++ p)).getD [] := by
  have hdot : dotCount "." = 1 := rfl
  let defStmt : PStmt := .functionDef f [p] body
  let asgStmt : PStmt := .assign [.name y] (.call (.name f) (.cons (.name arg) .nil))
  let s1 : AnState := visitStmt fileName builtinNames defStmt initAnState
  let st0 : AnState := { initAnState with currentFunc := initAnState.currentFunc ++ [f] }
  let qN : String := qualify fileName st0 f
  let depsL : List String := sortDeps (setOfList
      ((((stmtsWalkNames body).filter (fun i => !(builtinNames.contains i))).map
          (qualify fileName st0)) ++ [p].map (qualify fileName st0)))
  let st1 : AnState := { st0 with
    funcParams := alistSet st0.funcParams qN [p],
    functions := alistSet st0.functions qN depsL }
  have hqN : qN = fileName ++ "." ++ f ++ "." ++ f := by
    show fileName ++ "." ++ (f ++ "." ++ f) = fileName ++ "." ++ f ++ "." ++ f
    apply String.ext
    simp [String.data_append, List.append_assoc]
  have hdqN : dotCount qN = 2 := by
    rw [hqN]
    simp [dotCount_append, hfn, hf, hdot]
  have hA : s1.funcParams.lookup qN = some [p] := by
    show (visitStmts fileName builtinNames body st1).funcParams.lookup qN = some [p]
    apply funcParams_lookup_visitStmts
    · show (alistSet st0.funcParams qN [p]).lookup qN = some [p]
      exact lookup_alistSet_self _ _ _
    · have e1 : st1.currentClass.length = 0 := rfl
      have e2 : st1.currentFunc.length = 1 := rfl
      omega
  have hs1 := scope_visitStmt fileName builtinNames defStmt initAnState
  have hs1c : s1.currentClass = [] := hs1.1
  have hs1f : s1.currentFunc = [] := hs1.2
  have hqarg : qualify fileName s1 arg = fileName ++ "." ++ arg := by
    unfold qualify
    rw [hs1c, hs1f]
    rfl
  have hqy : qualify fileName s1 y = fileName ++ "." ++ y := by
    unfold qualify
    rw [hs1c, hs1f]
    rfl
  have hkeyq : fileName ++ "." ++ f ++ "." ++ f ++ "." ++ p = qN ++ "." ++ p := by
    rw [hqN]
  have hend : endswith qN ("." ++ f) = true := by
    have hsplit2 : qN = (fileName ++ "." ++ f) ++ ("." ++ f) := by
      rw [hqN]
      apply String.ext
      simp [String.data_append, List.append_assoc]
    rw [hsplit2]
    exact endswith_append _ _
  obtain ⟨pre, post, hsplit, hpreNone⟩ := lookup_split hA
  have hstep_pres : ∀ (l : List (String × List String))
      (vs : List (String × List String)),
      (fileName ++ "." ++ arg) ∈
        ((vs.lookup (fileName ++ "." ++ f ++ "." ++ f ++ "." ++ p)).getD []) →
      (fileName ++ "." ++ arg) ∈
        (((l.foldl (fun vs fp =>
            if endswith fp.1 ("." ++ f) then
              fp.2.foldl (fun vs2 param =>
                appendDep vs2 (fp.1 ++ "." ++ param) (qualify fileName s1 arg)) vs
            else vs) vs).lookup (fileName ++ "." ++ f ++ "." ++ f ++ "." ++ p)).getD []) := by
    intro l
    induction l with
    | nil => intro vs h; exact h
    | cons fp rest ih =>
      intro vs h
      rw [List.foldl_cons]
      apply ih
      by_cases he : endswith fp.1 ("." ++ f) = true
      · rw [if_pos he]
        refine foldl_preserve
          (P := fun vs2 => (fileName ++ "." ++ arg) ∈
            ((vs2.lookup (fileName ++ "." ++ f ++ "." ++ f ++ "." ++ p)).getD []))
          _ fp.2 vs h ?_
        intro param _ vs2 h2
        rw [← hqarg] at h2 ⊢
        exact mem_lookup_appendDep_mono vs2 (fp.1 ++ "." ++ param) _ _ _ h2
      · rw [if_neg he]
        exact h
  have hat_entry : ∀ (vs : List (String × List String)),
      (fileName ++ "." ++ arg) ∈
        ((((fun vs fp =>
            if endswith fp.1 ("." ++ f) then
              fp.2.foldl (fun vs2 param =>
                appendDep vs2 (fp.1 ++ "." ++ param) (qualify fileName s1 arg)) vs
            else vs) vs (qN, [p])).lookup
          (fileName ++ "." ++ f ++ "." ++ f ++ "." ++ p)).getD []) := by
    intro vs
    show (fileName ++ "." ++ arg) ∈
      ((if endswith qN ("." ++ f) = true then
          [p].foldl (fun vs2 param =>
            appendDep vs2 (qN ++ "." ++ param) (qualify fileName s1 arg)) vs
        else vs).lookup (fileName ++ "." ++ f ++ "." ++ f ++ "." ++ p)).getD []
    rw [if_pos hend]
    show (fileName ++ "." ++ arg) ∈
      (((appendDep vs (qN ++ "." ++ p) (qualify fileName s1 arg)).lookup
        (fileName ++ "." ++ f ++ "." ++ f ++ "." ++ p)).getD [])
    rw [hkeyq, ← hqarg]
    exact mem_lookup_appendDep_self vs (qN ++ "." ++ p) (qualify fileName s1 arg)
  have main : (fileName ++ "." ++ arg) ∈
      (((s1.funcParams.foldl (fun vs fp =>
          if endswith fp.1 ("." ++ f) then
            fp.2.foldl (fun vs2 param =>
              appendDep vs2 (fp.1 ++ "." ++ param) (qualify fileName s1 arg)) vs
          else vs) s1.variables_).lookup
        (fileName ++ "." ++ f ++ "." ++ f ++ "." ++ p)).getD []) := by
    rw [hsplit, List.foldl_append, List.foldl_cons]
    exact hstep_pres post _ (hat_entry _)
  have hneY : (fileName ++ "." ++ f ++ "." ++ f ++ "." ++ p) ≠ qualify fileName s1 y := by
    rw [hqy]
    intro he
    have hc := congrArg dotCount he
    rw [hkeyq] at hc
    rw [dotCount_append, dotCount_append, dotCount_append, dotCount_append] at hc
    rw [hdqN, hdot, hfn, hp, hy] at hc
    omega
  show (fileName ++ "." ++ arg) ∈
    ((alistSet (s1.funcParams.foldl (fun vs fp =>
        if endswith fp.1 ("." ++ f) then
          fp.2.foldl (fun vs2 param =>
            appendDep vs2 (fp.1 ++ "." ++ param) (qualify fileName s1 arg)) vs
        else vs) s1.variables_) (qualify fileName s1 y)
      (sortDeps (setAdd [qualify fileName s1 f] (qualify fileName s1 arg)))).lookup
      (fileName ++ "." ++ f ++ "." ++ f ++ "." ++ p)).getD []
  rw [lookup_alistSet_ne _ _ _ _ hneY]
  exact main

/-- Witness for C7 (amended) at a concrete file: `def f(p): return x + 1`
then `y = f(arg)`. -/
theorem claim_C7_arg_param_edge_def_first_witness :
    (dotCount "t" = 0 ∧ dotCount "f" = 0 ∧ dotCount "p" = 0 ∧ dotCount "y" = 0) ∧
    ("t" ++ "." ++ "arg") ∈
      (((build_full_graph_for_file "t" [] (.parsed (PBody.ofList
        [.functionDef "f" ["p"] (PBody.ofList [.ret (.binop (.name "x") .const)]),
         .assign [.name "y"]
           (.call (.name "f") (.cons (.name "arg") .nil))]))).variables_).lookup
        ("t" ++ "." ++ "f" ++ "." ++ "f" ++ "." ++ "p")).getD [] :=
  ⟨⟨rfl, rfl, rfl, rfl⟩,
   claim_C7_arg_param_edge_def_first "t" [] "f" "p" "y" "arg"
     (PBody.ofList [.ret (.binop (.name "x") .const)]) rfl rfl rfl rfl⟩

/-! ### Claims C1 and C2: the strict-kind ordered reverse-dependency walk -/

theorem visitSym_visited_mono (sel : SymbolTable → List (String × List String))
    (g : ProjectGraph) : ∀ (fuel : Nat) (sym : String) (st : DfsSt) (n : String),
    n ∈ st.visited → n ∈ (visitSym sel g fuel sym st).visited
  | 0, _, _, _, h => h
  | fuel + 1, sym, st, n, h => by
    by_cases hv : sym ∈ st.visited
    · simp only [visitSym, if_pos hv]
      exact h
    · simp only [visitSym, if_neg hv]
      refine foldl_preserve
        (P := fun (s : DfsSt) => n ∈ s.visited)
        _ (dependents sel g sym) ⟨sym :: st.visited, st.ordered⟩
        (List.mem_cons_of_mem _ h) ?_
      intro c _ s hs
      exact visitSym_visited_mono sel g fuel c s n hs

theorem foldVisit_visited_reach (sel : SymbolTable → List (String × List String))
    (g : ProjectGraph) (fuel : Nat)
    (IH : ∀ (sym : String) (st : DfsSt) (n : String),
      n ∈ (visitSym sel g fuel sym st).visited → n ∈ st.visited ∨ Reach sel g sym n) :
    ∀ (l : List String) (st : DfsSt) (n : String),
    n ∈ (l.foldl (fun s c => visitSym sel g fuel c s) st).visited →
    n ∈ st.visited ∨ ∃ c ∈ l, Reach sel g c n
  | [], _, _, h => Or.inl h
  | c :: rest, st, n, h => by
    rw [List.foldl_cons] at h
    rcases foldVisit_visited_reach sel g fuel IH rest _ n h with h2 | ⟨c', hc', hr⟩
    · rcases IH c st n h2 with h3 | h3
      · exact Or.inl h3
      · exact Or.inr ⟨c, by simp, h3⟩
    · exact Or.inr ⟨c', List.mem_cons_of_mem _ hc', hr⟩

theorem visitSym_visited_reach (sel : SymbolTable → List (String × List String))
    (g : ProjectGraph) : ∀ (fuel : Nat) (sym : String) (st : DfsSt) (n : String),
    n ∈ (visitSym sel g fuel sym st).visited → n ∈ st.visited ∨ Reach sel g sym n
  | 0, _, _, _, h => Or.inl h
  | fuel + 1, sym, st, n, h => by
    by_cases hv : sym ∈ st.visited
    · simp only [visitSym, if_pos hv] at h
      exact Or.inl h
    · simp only [visitSym, if_neg hv] at h
      rcases foldVisit_visited_reach sel g fuel (visitSym_visited_reach sel g fuel)
          (dependents sel g sym) ⟨sym :: st.visited, st.ordered⟩ n h with h2 | ⟨c, hc, hr⟩
      · rcases List.mem_cons.mp h2 with h3 | h3
        · exact Or.inr (h3 ▸ Reach.refl n)
        · exact Or.inl h3
      · exact Or.inr (Reach.step hc hr)

theorem foldVisit_ordered (sel : SymbolTable → List (String × List String))
    (g : ProjectGraph) (fuel : Nat)
    (IH : ∀ (sym : String) (st : DfsSt) (n : String),
      n ∈ (visitSym sel g fuel sym st).ordered →
      n ∈ st.ordered ∨ (Reach sel g sym n ∧ n ∉ st.visited)) :
    ∀ (l : List String) (st : DfsSt) (n : String),
    n ∈ (l.foldl (fun s c => visitSym sel g fuel c s) st).ordered →
    n ∈ st.ordered ∨ ∃ c ∈ l, (Reach sel g c n ∧ n ∉ st.visited)
  | [], _, _, h => Or.inl h
  | c :: rest, st, n, h => by
    rw [List.foldl_cons] at h
    rcases foldVisit_ordered sel g fuel IH rest _ n h with h2 | ⟨c', hc', hr, hnv⟩
    · rcases IH c st n h2 with h3 | ⟨h3, h4⟩
      · exact Or.inl h3
      · exact Or.inr ⟨c, by simp, h3, h4⟩
    · refine Or.inr ⟨c', List.mem_cons_of_mem _ hc', hr, fun hin => ?_⟩
      exact hnv (visitSym_visited_mono sel g fuel c st n hin)

theorem visitSym_ordered (sel : SymbolTable → List (String × List String))
    (g : ProjectGraph) : ∀ (fuel : Nat) (sym : String) (st : DfsSt) (n : String),
    n ∈ (visitSym sel g fuel sym st).ordered →
    n ∈ st.ordered ∨ (Reach sel g sym n ∧ n ∉ st.visited)
  | 0, _, _, _, h => Or.inl h
  | fuel + 1, sym, st, n, h => by
    by_cases hv : sym ∈ st.visited
    · simp only [visitSym, if_pos hv] at h
      exact Or.inl h
    · simp only [visitSym, if_neg hv] at h
      rcases List.mem_append.mp h with h2 | h2
      · rcases foldVisit_ordered sel g fuel (visitSym_ordered sel g fuel)
            (dependents sel g sym) ⟨sym :: st.visited, st.ordered⟩ n h2 with h3 | ⟨c, hc, hr, hnv⟩
        · exact Or.inl h3
        · refine Or.inr ⟨Reach.step hc hr, fun hin => hnv (List.mem_cons_of_mem _ hin)⟩
      · have hn : n = sym := List.mem_singleton.mp h2
        exact Or.inr ⟨hn ▸ Reach.refl n, hn ▸ hv⟩

/-- The well-formedness carried by the traversal state: the ordered list is
duplicate-free and contained in the visited set. -/
theorem visitSym_good (sel : SymbolTable → List (String × List String))
    (g : ProjectGraph) : ∀ (fuel : Nat) (sym : String) (st : DfsSt),
    st.ordered.Nodup → (∀ n ∈ st.ordered, n ∈ st.visited) →
    (visitSym sel g fuel sym st).ordered.Nodup ∧
    (∀ n ∈ (visitSym sel g fuel sym st).ordered, n ∈ (visitSym sel g fuel sym st).visited)
  | 0, _, _, hnd, hsub => ⟨hnd, hsub⟩
  | fuel + 1, sym, st, hnd, hsub => by
    by_cases hv : sym ∈ st.visited
    · simp only [visitSym, if_pos hv]
      exact ⟨hnd, hsub⟩
    · simp only [visitSym, if_neg hv]
      have hfold := foldl_preserve
        (P := fun (s : DfsSt) => s.ordered.Nodup ∧ ∀ n ∈ s.ordered, n ∈ s.visited)
        (fun s c => visitSym sel g fuel c s) (dependents sel g sym)
        ⟨sym :: st.visited, st.ordered⟩
        ⟨hnd, fun n hn => List.mem_cons_of_mem _ (hsub n hn)⟩
        (fun c _ s hs => visitSym_good sel g fuel c s hs.1 hs.2)
      have hsymvis := foldl_preserve
        (P := fun (s : DfsSt) => sym ∈ s.visited)
        (fun s c => visitSym sel g fuel c s) (dependents sel g sym)
        ⟨sym :: st.visited, st.ordered⟩ (by simp)
        (fun c _ s hs => visitSym_visited_mono sel g fuel c s sym hs)
      have hnotmem : sym ∉ ((dependents sel g sym).foldl
          (fun s c => visitSym sel g fuel c s) ⟨sym :: st.visited, st.ordered⟩).ordered := by
        intro hmem
        rcases foldVisit_ordered sel g fuel (visitSym_ordered sel g fuel)
            (dependents sel g sym) ⟨sym :: st.visited, st.ordered⟩ sym hmem
          with h3 | ⟨c, _, _, hnv⟩
        · exact hv (hsub sym h3)
        · exact hnv (by simp)
      constructor
      · rw [List.nodup_append]
        exact ⟨hfold.1, List.nodup_singleton sym,
          fun a ha hb => hnotmem (List.mem_singleton.mp hb ▸ ha)⟩
      · intro n hn
        rcases List.mem_append.mp hn with h2 | h2
        · exact hfold.2 n h2
        · exact List.mem_singleton.mp h2 ▸ hsymvis

theorem mem_matchCopies {target vi1 x : String} : ∀ (deps : List String),
    x ∈ deps.foldr (fun dep acc3 =>
      if nameMatches dep target then vi1 :: acc3 else acc3) [] → x = vi1
  | [], h => by simp at h
  | dep :: rest, h => by
    rw [List.foldr_cons] at h
    by_cases hm : nameMatches dep target = true
    · rw [if_pos hm] at h
      rcases List.mem_cons.mp h with h2 | h2
      · exact h2
      · exact mem_matchCopies rest h2
    · rw [if_neg hm] at h
      exact mem_matchCopies rest h

theorem mem_entriesCopies {target x : String} :
    ∀ (entries : List (String × List String)) (base : List String),
    x ∈ entries.foldr (fun vi acc2 =>
      vi.2.foldr (fun dep acc3 =>
        if nameMatches dep target then vi.1 :: acc3 else acc3) [] ++ acc2) base →
    (∃ vi ∈ entries, x = vi.1) ∨ x ∈ base
  | [], _, h => Or.inr h
  | vi :: rest, base, h => by
    rw [List.foldr_cons] at h
    rcases List.mem_append.mp h with h2 | h2
    · exact Or.inl ⟨vi, by simp, mem_matchCopies vi.2 h2⟩
    · rcases mem_entriesCopies rest base h2 with ⟨vi', hvi', hx⟩ | hx
      · exact Or.inl ⟨vi', List.mem_cons_of_mem _ hvi', hx⟩
      · exact Or.inr hx

theorem mem_dependents_sub (sel : SymbolTable → List (String × List String)) :
    ∀ (g : ProjectGraph) (target c : String),
    c ∈ dependents sel g target → c ∈ allKeys sel g
  | [], _, _, h => by simp [dependents] at h
  | ft :: rest, target, c, h => by
    unfold dependents at h
    rw [List.foldr_cons] at h
    rcases mem_entriesCopies (sel ft.2) _ h with ⟨vi, hvi, hx⟩ | hx
    · show c ∈ (sel ft.2).map Prod.fst ++ allKeys sel rest
      exact List.mem_append_left _ (hx ▸ List.mem_map_of_mem Prod.fst hvi)
    · show c ∈ (sel ft.2).map Prod.fst ++ allKeys sel rest
      exact List.mem_append_right _ (mem_dependents_sub sel rest target c hx)

/-- Stabilization of the memoized recursion: once the fuel exceeds the
number of not-yet-visited symbols that can ever be visited, its exact value
is irrelevant. -/
theorem visitSym_stable (sel : SymbolTable → List (String × List String))
    (g : ProjectGraph) (U : Finset String)
    (hU : ∀ c, c ∈ allKeys sel g → c ∈ U) :
    ∀ (k : Nat) (sym : String) (st : DfsSt) (f1 f2 : Nat),
    sym ∈ U → (U \ st.visited.toFinset).card ≤ k → k + 1 ≤ f1 → k + 1 ≤ f2 →
    visitSym sel g f1 sym st = visitSym sel g f2 sym st := by
  intro k
  induction k with
  | zero =>
    intro sym st f1 f2 hsym hcard hf1 hf2
    have hv : sym ∈ st.visited := by
      by_contra hnv
      have : sym ∈ U \ st.visited.toFinset :=
        Finset.mem_sdiff.mpr ⟨hsym, fun hm => hnv (List.mem_toFinset.mp hm)⟩
      have := Finset.card_pos.mpr ⟨sym, this⟩
      omega
    obtain ⟨f1', rfl⟩ : ∃ m, f1 = m + 1 := ⟨f1 - 1, by omega⟩
    obtain ⟨f2', rfl⟩ : ∃ m, f2 = m + 1 := ⟨f2 - 1, by omega⟩
    simp only [visitSym, if_pos hv]
  | succ k ih =>
    intro sym st f1 f2 hsym hcard hf1 hf2
    by_cases hv : sym ∈ st.visited
    · obtain ⟨f1', rfl⟩ : ∃ m, f1 = m + 1 := ⟨f1 - 1, by omega⟩
      obtain ⟨f2', rfl⟩ : ∃ m, f2 = m + 1 := ⟨f2 - 1, by omega⟩
      simp only [visitSym, if_pos hv]
    · obtain ⟨f1', rfl⟩ : ∃ m, f1 = m + 1 := ⟨f1 - 1, by omega⟩
      obtain ⟨f2', rfl⟩ : ∃ m, f2 = m + 1 := ⟨f2 - 1, by omega⟩
      simp only [visitSym, if_neg hv]
      have hcard1 : (U \ (sym :: st.visited).toFinset).card ≤ k := by
        have hmem : sym ∈ U \ st.visited.toFinset :=
          Finset.mem_sdiff.mpr ⟨hsym, fun hm => hv (List.mem_toFinset.mp hm)⟩
        have he : U \ (sym :: st.visited).toFinset = (U \ st.visited.toFinset).erase sym := by
          rw [List.toFinset_cons, Finset.sdiff_insert]
        rw [he, Finset.card_erase_of_mem hmem]
        omega
      have hfold : ∀ (l : List String), (∀ c ∈ l, c ∈ U) →
          ∀ (st' : DfsSt), (U \ st'.visited.toFinset).card ≤ k →
          l.foldl (fun s n => visitSym sel g f1' n s) st' =
            l.foldl (fun s n => visitSym sel g f2' n s) st' := by
        intro l
        induction l with
        | nil => intro _ _ _; rfl
        | cons c rest ihl =>
          intro hl st' hcard'
          rw [List.foldl_cons, List.foldl_cons]
          rw [ih c st' f1' f2' (hl c (by simp)) hcard' (by omega) (by omega)]
          apply ihl (fun c' hc' => hl c' (List.mem_cons_of_mem _ hc'))
          calc (U \ (visitSym sel g f2' c st').visited.toFinset).card
              ≤ (U \ st'.visited.toFinset).card := by
                apply Finset.card_le_card
                intro a ha
                rcases Finset.mem_sdiff.mp ha with ⟨haU, hanv⟩
                refine Finset.mem_sdiff.mpr ⟨haU, fun hm => hanv ?_⟩
                exact List.mem_toFinset.mpr
                  (visitSym_visited_mono sel g f2' c st' a (List.mem_toFinset.mp hm))
            _ ≤ k := hcard'
      rw [hfold (dependents sel g sym)
        (fun c hc => hU c (mem_dependents_sub sel g sym c hc))
        ⟨sym :: st.visited, st.ordered⟩ hcard1]

/-- Stabilization of the seed loop at the canonical fuel. -/
theorem runVisit_stable (sel : SymbolTable → List (String × List String))
    (g : ProjectGraph) (seeds : List String) (f1 f2 : Nat)
    (h1 : dfsFuel sel g seeds ≤ f1) (h2 : dfsFuel sel g seeds ≤ f2) :
    runVisit sel g f1 seeds = runVisit sel g f2 seeds := by
  unfold runVisit
  have hgen : ∀ (l : List String), (∀ c ∈ l, c ∈ (allKeys sel g ++ seeds).toFinset) →
      ∀ (st : DfsSt),
      l.foldl (fun s v => visitSym sel g f1 v s) st =
        l.foldl (fun s v => visitSym sel g f2 v s) st := by
    intro l
    induction l with
    | nil => intro _ _; rfl
    | cons c rest ihl =>
      intro hl st
      rw [List.foldl_cons, List.foldl_cons]
      rw [visitSym_stable sel g (allKeys sel g ++ seeds).toFinset
        (fun c' hc' => List.mem_toFinset.mpr (List.mem_append_left _ hc'))
        (allKeys sel g ++ seeds).toFinset.card c st f1 f2 (hl c (by simp))
        (Finset.card_le_card (Finset.sdiff_subset))
        (by unfold dfsFuel at h1; omega) (by unfold dfsFuel at h2; omega)]
      exact ihl (fun c' hc' => hl c' (List.mem_cons_of_mem _ hc')) _
  exact hgen seeds
    (fun c hc => List.mem_toFinset.mpr (List.mem_append_right _ hc)) _

theorem runVisit_ordered_nodup (sel : SymbolTable → List (String × List String))
    (g : ProjectGraph) (fuel : Nat) (seeds : List String) :
    (runVisit sel g fuel seeds).ordered.Nodup := by
  unfold runVisit
  exact (foldl_preserve
    (P := fun (s : DfsSt) => s.ordered.Nodup ∧ ∀ n ∈ s.ordered, n ∈ s.visited)
    (fun s v => visitSym sel g fuel v s) seeds ⟨[], []⟩ ⟨List.nodup_nil, by simp⟩
    (fun v _ s hs => visitSym_good sel g fuel v s hs.1 hs.2)).1

theorem runVisit_ordered_reach (sel : SymbolTable → List (String × List String))
    (g : ProjectGraph) (fuel : Nat) (seeds : List String) :
    ∀ n ∈ (runVisit sel g fuel seeds).ordered, ∃ s ∈ seeds, Reach sel g s n := by
  intro n hn
  rcases foldVisit_ordered sel g fuel (visitSym_ordered sel g fuel) seeds ⟨[], []⟩ n hn
    with h | ⟨c, hc, hr, _⟩
  · simp at h
  · exact ⟨c, hc, hr⟩

/-- C1: for every ProjectGraph and seed sets, the strict-kind ordered
propagation terminates — the memoized recursion stabilizes as soon as the
fuel reaches the closed-form bound `dfsFuel` (one more than the number of
symbols it could ever visit), even on cyclic graphs — and visits each symbol
at most once: both ordered output lists are duplicate-free. -/
theorem claim_C1_ordered_propagation_terminates (g : ProjectGraph)
    (changed_vars changed_funcs : List String) (fv ff : Nat)
    (h1 : dfsFuel varTab g changed_vars ≤ fv)
    (h2 : dfsFuel funcTab g changed_funcs ≤ ff) :
    (runVisit varTab g fv changed_vars =
        runVisit varTab g (dfsFuel varTab g changed_vars) changed_vars ∧
      runVisit funcTab g ff changed_funcs =
        runVisit funcTab g (dfsFuel funcTab g changed_funcs) changed_funcs) ∧
    (get_ordered_recursive_affected g changed_vars changed_funcs).1.Nodup ∧
    (get_ordered_recursive_affected g changed_vars changed_funcs).2.Nodup := by
  refine ⟨⟨runVisit_stable varTab g changed_vars fv _ h1 le_rfl,
    runVisit_stable funcTab g changed_funcs ff _ h2 le_rfl⟩, ?_, ?_⟩
  · exact List.nodup_reverse.mpr (runVisit_ordered_nodup varTab g _ changed_vars)
  · exact List.nodup_reverse.mpr (runVisit_ordered_nodup funcTab g _ changed_funcs)

/-- Witness for C1 on a two-cycle (`t.a` depends on `t.b` and vice versa). -/
theorem claim_C1_ordered_propagation_terminates_witness :
    (dfsFuel varTab [("f.py", SymbolTable.mk [("t.a", ["t.b"]), ("t.b", ["t.a"])] [])]
        ["t.a"] ≤ 3 ∧
      dfsFuel funcTab [("f.py", SymbolTable.mk [("t.a", ["t.b"]), ("t.b", ["t.a"])] [])]
        [] ≤ 1) ∧
    ((runVisit varTab [("f.py", SymbolTable.mk [("t.a", ["t.b"]), ("t.b", ["t.a"])] [])]
        3 ["t.a"] =
      runVisit varTab [("f.py", SymbolTable.mk [("t.a", ["t.b"]), ("t.b", ["t.a"])] [])]
        (dfsFuel varTab [("f.py", SymbolTable.mk [("t.a", ["t.b"]), ("t.b", ["t.a"])] [])]
          ["t.a"]) ["t.a"] ∧
      runVisit funcTab [("f.py", SymbolTable.mk [("t.a", ["t.b"]), ("t.b", ["t.a"])] [])]
        1 [] =
      runVisit funcTab [("f.py", SymbolTable.mk [("t.a", ["t.b"]), ("t.b", ["t.a"])] [])]
        (dfsFuel funcTab [("f.py", SymbolTable.mk [("t.a", ["t.b"]), ("t.b", ["t.a"])] [])]
          []) []) ∧
    (get_ordered_recursive_affected
      [("f.py", SymbolTable.mk [("t.a", ["t.b"]), ("t.b", ["t.a"])] [])] ["t.a"] []).1.Nodup ∧
    (get_ordered_recursive_affected
      [("f.py", SymbolTable.mk [("t.a", ["t.b"]), ("t.b", ["t.a"])] [])] ["t.a"] []).2.Nodup) :=
  ⟨⟨by decide, by decide⟩,
   claim_C1_ordered_propagation_terminates
     [("f.py", SymbolTable.mk [("t.a", ["t.b"]), ("t.b", ["t.a"])] [])]
     ["t.a"] [] 3 1 (by decide) (by decide)⟩

/-- C2: cross-kind influence never propagates automatically — every name in
the returned ordered variable list is a seed variable or reached from one
through variable-to-variable dependency matches only (`Reach varTab`), and
symmetrically every name in the ordered function list is a seed function or
reached through function-to-function matches only (`Reach funcTab`). -/
theorem claim_C2_no_cross_kind_propagation (g : ProjectGraph)
    (changed_vars changed_funcs : List String) :
    (∀ n ∈ (get_ordered_recursive_affected g changed_vars changed_funcs).1,
      ∃ s ∈ changed_vars, Reach varTab g s n) ∧
    (∀ n ∈ (get_ordered_recursive_affected g changed_vars changed_funcs).2,
      ∃ s ∈ changed_funcs, Reach funcTab g s n) := by
  constructor
  · intro n hn
    exact runVisit_ordered_reach varTab g _ changed_vars n (List.mem_reverse.mp hn)
  · intro n hn
    exact runVisit_ordered_reach funcTab g _ changed_funcs n (List.mem_reverse.mp hn)

/-- Witness for C2: `t.b` appears in the ordered variable output for seed
`t.a`, and is indeed variable-to-variable reachable from the seed. -/
theorem claim_C2_no_cross_kind_propagation_witness :
    ("t.b" ∈ (get_ordered_recursive_affected
      [("f.py", SymbolTable.mk [("t.a", ["t.b"]), ("t.b", ["t.a"])] [])] ["t.a"] []).1) ∧
    ∃ s ∈ ["t.a"], Reach varTab
      [("f.py", SymbolTable.mk [("t.a", ["t.b"]), ("t.b", ["t.a"])] [])] s "t.b" :=
  ⟨by decide,
   (claim_C2_no_cross_kind_propagation
     [("f.py", SymbolTable.mk [("t.a", ["t.b"]), ("t.b", ["t.a"])] [])] ["t.a"] []).1
     "t.b" (by decide)⟩

/-! ### Claims C5, C10, C4: the collapsed fixed-point expansions -/

theorem tablePass_nil (test : Finset String → List String → Bool)
    (acc : Finset String × Bool) : tablePass test [] acc = acc := rfl

theorem tablePass_cons (test : Finset String → List String → Bool)
    (e : String × List String) (rest : List (String × List String))
    (acc : Finset String × Bool) :
    tablePass test (e :: rest) acc = tablePass test rest
      (if test acc.1 e.2 then
        (if e.1 ∈ acc.1 then acc else (insert e.1 acc.1, true))
      else acc) := rfl

theorem tablePass_flag_mono (test : Finset String → List String → Bool) :
    ∀ (entries : List (String × List String)) (acc : Finset String × Bool),
    acc.2 = true → (tablePass test entries acc).2 = true
  | [], _, h => h
  | e :: rest, acc, h => by
    rw [tablePass_cons]
    by_cases h1 : test acc.1 e.2 = true
    · rw [if_pos h1]
      by_cases h2 : e.1 ∈ acc.1
      · rw [if_pos h2]
        exact tablePass_flag_mono test rest acc h
      · rw [if_neg h2]
        exact tablePass_flag_mono test rest _ rfl
    · rw [if_neg h1]
      exact tablePass_flag_mono test rest acc h

theorem tablePass_set_mono (test : Finset String → List String → Bool) :
    ∀ (entries : List (String × List String)) (acc : Finset String × Bool)
    (x : String), x ∈ acc.1 → x ∈ (tablePass test entries acc).1
  | [], _, _, h => h
  | e :: rest, acc, x, h => by
    rw [tablePass_cons]
    by_cases h1 : test acc.1 e.2 = true
    · rw [if_pos h1]
      by_cases h2 : e.1 ∈ acc.1
      · rw [if_pos h2]
        exact tablePass_set_mono test rest acc x h
      · rw [if_neg h2]
        exact tablePass_set_mono test rest _ x (Finset.mem_insert_of_mem h)
    · rw [if_neg h1]
      exact tablePass_set_mono test rest acc x h

theorem tablePass_sub (test : Finset String → List String → Bool) :
    ∀ (entries : List (String × List String)) (acc : Finset String × Bool)
    (x : String), x ∈ (tablePass test entries acc).1 →
    x ∈ acc.1 ∨ x ∈ entries.map Prod.fst
  | [], _, _, h => Or.inl h
  | e :: rest, acc, x, h => by
    rw [tablePass_cons] at h
    by_cases h1 : test acc.1 e.2 = true
    · rw [if_pos h1] at h
      by_cases h2 : e.1 ∈ acc.1
      · rw [if_pos h2] at h
        rcases tablePass_sub test rest acc x h with h3 | h3
        · exact Or.inl h3
        · exact Or.inr (List.mem_cons_of_mem _ h3)
      · rw [if_neg h2] at h
        rcases tablePass_sub test rest _ x h with h3 | h3
        · rcases Finset.mem_insert.mp h3 with h4 | h4
          · exact Or.inr (by simp [h4])
          · exact Or.inl h4
        · exact Or.inr (List.mem_cons_of_mem _ h3)
    · rw [if_neg h1] at h
      rcases tablePass_sub test rest acc x h with h3 | h3
      · exact Or.inl h3
      · exact Or.inr (List.mem_cons_of_mem _ h3)

theorem tablePass_noch (test : Finset String → List String → Bool) :
    ∀ (entries : List (String × List String)) (acc : Finset String × Bool)
    (t : Finset String), tablePass test entries acc = (t, false) →
    t = acc.1 ∧ acc.2 = false ∧
      ∀ k ds, (k, ds) ∈ entries → test acc.1 ds = true → k ∈ acc.1
  | [], acc, t, h => by
    rw [tablePass_nil] at h
    obtain ⟨h1, h2⟩ := Prod.mk.injEq _ _ _ _ ▸ h
    exact ⟨h1.symm, h2, by simp⟩
  | e :: rest, acc, t, h => by
    rw [tablePass_cons] at h
    by_cases h1 : test acc.1 e.2 = true
    · rw [if_pos h1] at h
      by_cases h2 : e.1 ∈ acc.1
      · rw [if_pos h2] at h
        obtain ⟨h3, h4, h5⟩ := tablePass_noch test rest acc t h
        refine ⟨h3, h4, ?_⟩
        intro k ds hkds htest
        rcases List.mem_cons.mp hkds with h6 | h6
        · obtain ⟨hk, _⟩ := Prod.mk.injEq _ _ _ _ ▸ h6
          exact hk ▸ h2
        · exact h5 k ds h6 htest
      · rw [if_neg h2] at h
        have := tablePass_flag_mono test rest (insert e.1 acc.1, true) rfl
        rw [h] at this
        exact absurd this (by simp)
    · rw [if_neg h1] at h
      obtain ⟨h3, h4, h5⟩ := tablePass_noch test rest acc t h
      refine ⟨h3, h4, ?_⟩
      intro k ds hkds htest
      rcases List.mem_cons.mp hkds with h6 | h6
      · obtain ⟨_, hds⟩ := Prod.mk.injEq _ _ _ _ ▸ h6
        exact absurd (hds ▸ htest) h1
      · exact h5 k ds h6 htest

theorem tablePass_new (test : Finset String → List String → Bool) :
    ∀ (entries : List (String × List String)) (t0 t : Finset String),
    tablePass test entries (t0, false) = (t, true) →
    ∃ x, x ∈ t ∧ x ∉ t0 ∧ x ∈ entries.map Prod.fst
  | [], t0, t, h => by
    rw [tablePass_nil] at h
    obtain ⟨_, h2⟩ := Prod.mk.injEq _ _ _ _ ▸ h
    exact absurd h2 (by simp)
  | e :: rest, t0, t, h => by
    rw [tablePass_cons] at h
    by_cases h1 : test t0 e.2 = true
    · rw [if_pos (show test (t0, false).1 e.2 = true from h1)] at h
      by_cases h2 : e.1 ∈ t0
      · rw [if_pos (show e.1 ∈ (t0, false).1 from h2)] at h
        obtain ⟨x, hx1, hx2, hx3⟩ := tablePass_new test rest t0 t h
        exact ⟨x, hx1, hx2, List.mem_cons_of_mem _ hx3⟩
      · rw [if_neg (show ¬ e.1 ∈ (t0, false).1 from h2)] at h
        refine ⟨e.1, ?_, h2, by simp⟩
        have := tablePass_set_mono test rest (insert e.1 t0, true) e.1 (by simp)
        rw [h] at this
        exact this
    · rw [if_neg (show ¬ test (t0, false).1 e.2 = true from h1)] at h
      obtain ⟨x, hx1, hx2, hx3⟩ := tablePass_new test rest t0 t h
      exact ⟨x, hx1, hx2, List.mem_cons_of_mem _ hx3⟩

theorem impactTest_iff (other own : Finset String) (deps : List String) :
    impactTest other own deps = true ↔
      ∃ d ∈ deps, normalizeName d ∈ normSet own ∨ normalizeName d ∈ normSet other := by
  simp [impactTest, List.any_eq_true]

theorem delTest_iff (own : Finset String) (deps : List String) :
    delTest own deps = true ↔ ∃ d ∈ deps, normalizeName d ∈ normSet own := by
  simp [delTest, List.any_eq_true]

theorem onePass_noch (fg : SymbolTable) (s s' : Finset String × Finset String)
    (h : onePass fg s = (s', false)) : s' = s ∧ isFixedPoint fg s := by
  unfold onePass at h
  rcases hrv : tablePass (impactTest s.2) fg.variables_ (s.1, false) with ⟨rv1, rvb⟩
  rw [hrv] at h
  dsimp only at h
  rcases hrf : tablePass (impactTest rv1) fg.functions (s.2, rvb) with ⟨rf1, rfb⟩
  rw [hrf] at h
  dsimp only at h
  obtain ⟨h1, h2⟩ := Prod.mk.injEq _ _ _ _ ▸ h
  cases rvb with
  | true =>
    have := tablePass_flag_mono (impactTest rv1) fg.functions (s.2, true) rfl
    rw [hrf] at this
    rw [h2] at this
    exact absurd this (by simp)
  | false =>
    obtain ⟨hA1, _, hA3⟩ := tablePass_noch _ fg.variables_ (s.1, false) rv1 hrv
    rw [h2] at hrf
    obtain ⟨hB1, _, hB3⟩ := tablePass_noch _ fg.functions (s.2, false) rf1 hrf
    dsimp only at hA1 hA3 hB1 hB3
    constructor
    · rw [← h1, hA1, hB1]
    · constructor
      · intro v ds hm hex
        exact hA3 v ds hm ((impactTest_iff s.2 s.1 ds).mpr hex)
      · intro f ds hm hex
        rw [hA1] at hB3
        exact hB3 f ds hm ((impactTest_iff s.1 s.2 ds).mpr (by
          obtain ⟨d, hd, ho⟩ := hex
          exact ⟨d, hd, ho.symm⟩))

theorem onePass_mono (fg : SymbolTable) (s : Finset String × Finset String) :
    (∀ x ∈ s.1, x ∈ (onePass fg s).1.1) ∧ (∀ x ∈ s.2, x ∈ (onePass fg s).1.2) := by
  unfold onePass
  constructor
  · intro x hx
    exact tablePass_set_mono _ fg.variables_ (s.1, false) x hx
  · intro x hx
    exact tablePass_set_mono _ fg.functions _ x hx

theorem onePass_strict (fg : SymbolTable) (s s' : Finset String × Finset String)
    (h : onePass fg s = (s', true)) : measureImp fg s' < measureImp fg s := by
  unfold onePass at h
  rcases hrv : tablePass (impactTest s.2) fg.variables_ (s.1, false) with ⟨rv1, rvb⟩
  rw [hrv] at h
  dsimp only at h
  rcases hrf : tablePass (impactTest rv1) fg.functions (s.2, rvb) with ⟨rf1, rfb⟩
  rw [hrf] at h
  dsimp only at h
  obtain ⟨h1, h2⟩ := Prod.mk.injEq _ _ _ _ ▸ h
  have hmono1 : ∀ x ∈ s.1, x ∈ rv1 := by
    intro x hx
    have := tablePass_set_mono (impactTest s.2) fg.variables_ (s.1, false) x hx
    rw [hrv] at this
    exact this
  have hmono2 : ∀ x ∈ s.2, x ∈ rf1 := by
    intro x hx
    have := tablePass_set_mono (impactTest rv1) fg.functions (s.2, rvb) x hx
    rw [hrf] at this
    exact this
  have hsub1 : (fg.variables_.map Prod.fst).toFinset \ rv1 ⊆
      (fg.variables_.map Prod.fst).toFinset \ s.1 := by
    intro a ha
    rcases Finset.mem_sdiff.mp ha with ⟨h3, h4⟩
    exact Finset.mem_sdiff.mpr ⟨h3, fun h5 => h4 (hmono1 a h5)⟩
  have hsub2 : (fg.functions.map Prod.fst).toFinset \ rf1 ⊆
      (fg.functions.map Prod.fst).toFinset \ s.2 := by
    intro a ha
    rcases Finset.mem_sdiff.mp ha with ⟨h3, h4⟩
    exact Finset.mem_sdiff.mpr ⟨h3, fun h5 => h4 (hmono2 a h5)⟩
  rw [← h1]
  unfold measureImp
  dsimp only
  cases rvb with
  | true =>
    obtain ⟨x, hx1, hx2, hx3⟩ := tablePass_new _ fg.variables_ s.1 rv1 hrv
    have hstrict : (fg.variables_.map Prod.fst).toFinset \ rv1 ⊂
        (fg.variables_.map Prod.fst).toFinset \ s.1 := by
      rw [Finset.ssubset_iff_of_subset hsub1]
      exact ⟨x, Finset.mem_sdiff.mpr ⟨List.mem_toFinset.mpr hx3, hx2⟩,
        fun h5 => (Finset.mem_sdiff.mp h5).2 hx1⟩
    have c1 := Finset.card_lt_card hstrict
    have c2 := Finset.card_le_card hsub2
    omega
  | false =>
    obtain ⟨hA1, _, _⟩ := tablePass_noch _ fg.variables_ (s.1, false) rv1 hrv
    dsimp only at hA1
    rw [h2] at hrf
    obtain ⟨x, hx1, hx2, hx3⟩ := tablePass_new _ fg.functions s.2 rf1 hrf
    have hstrict : (fg.functions.map Prod.fst).toFinset \ rf1 ⊂
        (fg.functions.map Prod.fst).toFinset \ s.2 := by
      rw [Finset.ssubset_iff_of_subset hsub2]
      exact ⟨x, Finset.mem_sdiff.mpr ⟨List.mem_toFinset.mpr hx3, hx2⟩,
        fun h5 => (Finset.mem_sdiff.mp h5).2 hx1⟩
    have c1 := Finset.card_lt_card hstrict
    rw [hA1]
    omega

theorem onePassDel_noch (ng : SymbolTable) (s s' : Finset String)
    (h : onePassDel ng s = (s', false)) : s' = s ∧ isFixedDel ng s := by
  unfold onePassDel at h
  rcases hrv : tablePass delTest ng.variables_ (s, false) with ⟨rv1, rvb⟩
  rw [hrv] at h
  cases rvb with
  | true =>
    have := tablePass_flag_mono delTest ng.functions (rv1, true) rfl
    rw [h] at this
    exact absurd this (by simp)
  | false =>
    obtain ⟨hA1, _, hA3⟩ := tablePass_noch _ ng.variables_ (s, false) rv1 hrv
    dsimp only at hA1 hA3
    subst hA1
    obtain ⟨hB1, _, hB3⟩ := tablePass_noch _ ng.functions (rv1, false) s' h
    dsimp only at hB1 hB3
    subst hB1
    exact ⟨rfl, fun v ds hm hex => hA3 v ds hm ((delTest_iff _ ds).mpr hex),
      fun f ds hm hex => hB3 f ds hm ((delTest_iff _ ds).mpr hex)⟩

theorem onePassDel_mono (ng : SymbolTable) (s : Finset String) :
    ∀ x ∈ s, x ∈ (onePassDel ng s).1 := by
  intro x hx
  unfold onePassDel
  exact tablePass_set_mono delTest ng.functions _ x
    (tablePass_set_mono delTest ng.variables_ (s, false) x hx)

theorem onePassDel_strict (ng : SymbolTable) (s s' : Finset String)
    (h : onePassDel ng s = (s', true)) : measureDel ng s' < measureDel ng s := by
  unfold onePassDel at h
  rcases hrv : tablePass delTest ng.variables_ (s, false) with ⟨rv1, rvb⟩
  rw [hrv] at h
  have hmono1 : ∀ x ∈ s, x ∈ rv1 := by
    intro x hx
    have := tablePass_set_mono delTest ng.variables_ (s, false) x hx
    rw [hrv] at this
    exact this
  have hmono2 : ∀ x ∈ rv1, x ∈ s' := by
    intro x hx
    have := tablePass_set_mono delTest ng.functions (rv1, rvb) x hx
    rw [h] at this
    exact this
  have hsub : (((ng.variables_.map Prod.fst).toFinset ∪
      (ng.functions.map Prod.fst).toFinset) \ s') ⊆
      (((ng.variables_.map Prod.fst).toFinset ∪
        (ng.functions.map Prod.fst).toFinset) \ s) := by
    intro a ha
    rcases Finset.mem_sdiff.mp ha with ⟨h3, h4⟩
    exact Finset.mem_sdiff.mpr ⟨h3, fun h5 => h4 (hmono2 a (hmono1 a h5))⟩
  unfold measureDel
  apply Finset.card_lt_card
  rw [Finset.ssubset_iff_of_subset hsub]
  cases rvb with
  | true =>
    obtain ⟨x, hx1, hx2, hx3⟩ := tablePass_new _ ng.variables_ s rv1 hrv
    refine ⟨x, Finset.mem_sdiff.mpr
      ⟨Finset.mem_union_left _ (List.mem_toFinset.mpr hx3), hx2⟩, ?_⟩
    intro h5
    exact (Finset.mem_sdiff.mp h5).2 (hmono2 x hx1)
  | false =>
    obtain ⟨hA1, _, _⟩ := tablePass_noch _ ng.variables_ (s, false) rv1 hrv
    dsimp only at hA1
    subst hA1
    obtain ⟨x, hx1, hx2, hx3⟩ := tablePass_new _ ng.functions rv1 s' h
    refine ⟨x, Finset.mem_sdiff.mpr
      ⟨Finset.mem_union_right _ (List.mem_toFinset.mpr hx3), hx2⟩, ?_⟩
    intro h5
    exact (Finset.mem_sdiff.mp h5).2 hx1

theorem expandImpacts_fix (fg : SymbolTable) :
    ∀ (fuel : Nat) (s : Finset String × Finset String),
    measureImp fg s < fuel → isFixedPoint fg (expandImpacts fg fuel s)
  | 0, s, h => absurd h (by omega)
  | fuel + 1, s, h => by
    rcases h1 : onePass fg s with ⟨s1, b⟩
    show isFixedPoint fg (expandImpacts fg (fuel + 1) s)
    simp only [expandImpacts, h1]
    cases b with
    | false =>
      obtain ⟨he, hfix⟩ := onePass_noch fg s s1 h1
      simpa [he] using hfix
    | true =>
      have hlt := onePass_strict fg s s1 h1
      simp only [if_pos rfl]
      exact expandImpacts_fix fg fuel s1 (by omega)

theorem expandImpacts_stable (fg : SymbolTable) :
    ∀ (k : Nat) (s : Finset String × Finset String) (f1 f2 : Nat),
    measureImp fg s ≤ k → k < f1 → k < f2 →
    expandImpacts fg f1 s = expandImpacts fg f2 s := by
  intro k
  induction k with
  | zero =>
    intro s f1 f2 hm h1 h2
    obtain ⟨a, rfl⟩ : ∃ m, f1 = m + 1 := ⟨f1 - 1, by omega⟩
    obtain ⟨b, rfl⟩ : ∃ m, f2 = m + 1 := ⟨f2 - 1, by omega⟩
    rcases hop : onePass fg s with ⟨s1, bb⟩
    cases bb with
    | false => simp only [expandImpacts, hop, Bool.false_eq_true, if_false]
    | true =>
      have := onePass_strict fg s s1 hop
      omega
  | succ k ih =>
    intro s f1 f2 hm h1 h2
    obtain ⟨a, rfl⟩ : ∃ m, f1 = m + 1 := ⟨f1 - 1, by omega⟩
    obtain ⟨b, rfl⟩ : ∃ m, f2 = m + 1 := ⟨f2 - 1, by omega⟩
    rcases hop : onePass fg s with ⟨s1, bb⟩
    cases bb with
    | false => simp only [expandImpacts, hop, Bool.false_eq_true, if_false]
    | true =>
      have := onePass_strict fg s s1 hop
      simp only [expandImpacts, hop, if_pos rfl]
      exact ih s1 a b (by omega) (by omega) (by omega)

theorem expandDeletionImpact_mono (ng : SymbolTable) :
    ∀ (fuel : Nat) (s : Finset String) (x : String),
    x ∈ s → x ∈ expandDeletionImpact ng fuel s
  | 0, _, _, h => h
  | fuel + 1, s, x, h => by
    rcases hop : onePassDel ng s with ⟨s1, b⟩
    have hx1 : x ∈ s1 := by
      have := onePassDel_mono ng s x h
      rw [hop] at this
      exact this
    cases b with
    | false => simp only [expandDeletionImpact, hop, Bool.false_eq_true, if_false]; exact hx1
    | true =>
      simp only [expandDeletionImpact, hop, if_pos rfl]
      exact expandDeletionImpact_mono ng fuel s1 x hx1

theorem expandDeletionImpact_stable (ng : SymbolTable) :
    ∀ (k : Nat) (s : Finset String) (f1 f2 : Nat),
    measureDel ng s ≤ k → k < f1 → k < f2 →
    expandDeletionImpact ng f1 s = expandDeletionImpact ng f2 s := by
  intro k
  induction k with
  | zero =>
    intro s f1 f2 hm h1 h2
    obtain ⟨a, rfl⟩ : ∃ m, f1 = m + 1 := ⟨f1 - 1, by omega⟩
    obtain ⟨b, rfl⟩ : ∃ m, f2 = m + 1 := ⟨f2 - 1, by omega⟩
    rcases hop : onePassDel ng s with ⟨s1, bb⟩
    cases bb with
    | false => simp only [expandDeletionImpact, hop, Bool.false_eq_true, if_false]
    | true =>
      have := onePassDel_strict ng s s1 hop
      omega
  | succ k ih =>
    intro s f1 f2 hm h1 h2
    obtain ⟨a, rfl⟩ : ∃ m, f1 = m + 1 := ⟨f1 - 1, by omega⟩
    obtain ⟨b, rfl⟩ : ∃ m, f2 = m + 1 := ⟨f2 - 1, by omega⟩
    rcases hop : onePassDel ng s with ⟨s1, bb⟩
    cases bb with
    | false => simp only [expandDeletionImpact, hop, Bool.false_eq_true, if_false]
    | true =>
      have := onePassDel_strict ng s s1 hop
      simp only [expandDeletionImpact, hop, if_pos rfl]
      exact ih s1 a b (by omega) (by omega) (by omega)

theorem measureImp_lt_symBound (fg : SymbolTable) (s : Finset String × Finset String) :
    measureImp fg s < symBound fg := by
  unfold measureImp symBound
  have c1 : ((fg.variables_.map Prod.fst).toFinset \ s.1).card ≤
      (fg.variables_.map Prod.fst).toFinset.card :=
    Finset.card_le_card Finset.sdiff_subset
  have c2 : ((fg.functions.map Prod.fst).toFinset \ s.2).card ≤
      (fg.functions.map Prod.fst).toFinset.card :=
    Finset.card_le_card Finset.sdiff_subset
  omega

theorem measureDel_lt_symBound (ng : SymbolTable) (s : Finset String) :
    measureDel ng s < symBound ng := by
  unfold measureDel symBound
  have c1 : ((((ng.variables_.map Prod.fst).toFinset ∪
      (ng.functions.map Prod.fst).toFinset)) \ s).card ≤
      ((ng.variables_.map Prod.fst).toFinset ∪
        (ng.functions.map Prod.fst).toFinset).card :=
    Finset.card_le_card Finset.sdiff_subset
  have c2 := Finset.card_union_le (ng.variables_.map Prod.fst).toFinset
    (ng.functions.map Prod.fst).toFinset
  omega

/-- C5: `analyze_file_changes` returns a fixed point of the collapsed
single-file expansion: any variable or function of the file's table whose
collapsed dependency set meets the collapsed affected sets is already in the
returned affected set of its kind — a further full pass would add nothing. -/
theorem claim_C5_analyze_returns_fixed_point (fileName : String)
    (builtinNames : List String) (inp : FileInput) (lines : List String)
    (changed_lines : List Nat) :
    isFixedPoint (build_full_graph_for_file fileName builtinNames inp)
      (analyze_file_changes fileName builtinNames inp lines changed_lines) := by
  unfold analyze_file_changes
  exact expandImpacts_fix _ _ _ (measureImp_lt_symBound _ _)

/-- Witness for C5: in `x = 1; y = x` with line 1 changed, `t.y`'s
dependency `t.x` meets the affected set, and `t.y` is indeed in the result. -/
theorem claim_C5_analyze_returns_fixed_point_witness :
    (("t.y", ["t.x"]) ∈ (build_full_graph_for_file "t" [] (.parsed (PBody.ofList
      [.assign [.name "x"] .const, .assign [.name "y"] (.name "x")]))).variables_) ∧
    "t.y" ∈ (analyze_file_changes "t" [] (.parsed (PBody.ofList
      [.assign [.name "x"] .const, .assign [.name "y"] (.name "x")]))
      ["x = 1", "y = x"] [1]).1 :=
  ⟨by decide,
   (claim_C5_analyze_returns_fixed_point "t" [] (.parsed (PBody.ofList
      [.assign [.name "x"] .const, .assign [.name "y"] (.name "x")]))
      ["x = 1", "y = x"] [1]).1 "t.y" ["t.x"] (by decide) (by decide)⟩

/-- C10: both collapsed fixed-point loops terminate: their result stabilizes
once the fuel reaches `symBound` (one more than the number of table symbols),
because each full pass that sets the `changed` flag strictly shrinks the set
of table keys not yet affected. -/
theorem claim_C10_expansion_loops_terminate (fg : SymbolTable)
    (s : Finset String × Finset String) (sd : Finset String) (f1 f2 f3 f4 : Nat)
    (h1 : symBound fg ≤ f1) (h2 : symBound fg ≤ f2)
    (h3 : symBound fg ≤ f3) (h4 : symBound fg ≤ f4) :
    (expandImpacts fg f1 s = expandImpacts fg f2 s ∧
      expandDeletionImpact fg f3 sd = expandDeletionImpact fg f4 sd) ∧
    (∀ s' r, onePass fg s' = (r, true) → measureImp fg r < measureImp fg s') ∧
    (∀ sd' r, onePassDel fg sd' = (r, true) → measureDel fg r < measureDel fg sd') := by
  have hb : 1 ≤ symBound fg := by unfold symBound; omega
  refine ⟨⟨?_, ?_⟩, fun s' r h => onePass_strict fg s' r h,
    fun sd' r h => onePassDel_strict fg sd' r h⟩
  · exact expandImpacts_stable fg (symBound fg - 1) s f1 f2
      (by have := measureImp_lt_symBound fg s; omega) (by omega) (by omega)
  · exact expandDeletionImpact_stable fg (symBound fg - 1) sd f3 f4
      (by have := measureDel_lt_symBound fg sd; omega) (by omega) (by omega)

/-- Witness for C10 at a one-variable table. -/
theorem claim_C10_expansion_loops_terminate_witness :
    (symBound (SymbolTable.mk [("t.x", [])] []) ≤ 2) ∧
    ((expandImpacts (SymbolTable.mk [("t.x", [])] []) 2 (∅, ∅) =
        expandImpacts (SymbolTable.mk [("t.x", [])] []) 5 (∅, ∅) ∧
      expandDeletionImpact (SymbolTable.mk [("t.x", [])] []) 2 ∅ =
        expandDeletionImpact (SymbolTable.mk [("t.x", [])] []) 7 ∅) ∧
    (∀ s' r, onePass (SymbolTable.mk [("t.x", [])] []) s' = (r, true) →
      measureImp (SymbolTable.mk [("t.x", [])] []) r <
        measureImp (SymbolTable.mk [("t.x", [])] []) s') ∧
    (∀ sd' r, onePassDel (SymbolTable.mk [("t.x", [])] []) sd' = (r, true) →
      measureDel (SymbolTable.mk [("t.x", [])] []) r <
        measureDel (SymbolTable.mk [("t.x", [])] []) sd')) :=
  ⟨by decide,
   claim_C10_expansion_loops_terminate (SymbolTable.mk [("t.x", [])] []) (∅, ∅) ∅
     2 5 2 7 (by decide) (by decide) (by decide) (by decide)⟩

theorem seedInsert_base_mono (test : String → Bool) :
    ∀ (entries : List (String × List String)) (base : Finset String) (x : String),
    x ∈ base →
    x ∈ entries.foldr (fun vi a => if vi.2.any test then insert vi.1 a else a) base
  | [], _, _, h => h
  | vi :: rest, base, x, h => by
    rw [List.foldr_cons]
    by_cases ht : vi.2.any test = true
    · rw [if_pos ht]
      exact Finset.mem_insert_of_mem (seedInsert_base_mono test rest base x h)
    · rw [if_neg ht]
      exact seedInsert_base_mono test rest base x h

theorem seedInsert_mem (test : String → Bool) :
    ∀ (entries : List (String × List String)) (base : Finset String)
    (k : String) (ds : List String),
    (k, ds) ∈ entries → ds.any test = true →
    k ∈ entries.foldr (fun vi a => if vi.2.any test then insert vi.1 a else a) base
  | [], _, _, _, h, _ => by simp at h
  | vi :: rest, base, k, ds, h, ht => by
    rw [List.foldr_cons]
    rcases List.mem_cons.mp h with h2 | h2
    · obtain ⟨hk, hds⟩ := Prod.mk.injEq _ _ _ _ ▸ h2
      rw [if_pos (show vi.2.any test = true from hds ▸ ht)]
      rw [← hk]
      exact Finset.mem_insert_self k _
    · by_cases hvt : vi.2.any test = true
      · rw [if_pos hvt]
        exact Finset.mem_insert_of_mem (seedInsert_mem test rest base k ds h2 ht)
      · rw [if_neg hvt]
        exact seedInsert_mem test rest base k ds h2 ht

/-- Any current symbol of either kind one of whose dependencies collapses
into `dn` lands in the expanded deletion-affected set. -/
theorem deletion_seed_in_result (ng : SymbolTable) (dn : Finset String) :
    (∀ v ds, (v, ds) ∈ ng.variables_ → (∃ d ∈ ds, normalizeName d ∈ dn) →
      v ∈ expandDeletionImpact ng (symBound ng)
        (ng.functions.foldr (fun fi a =>
          if fi.2.any (fun dep => normalizeName dep ∈ dn) then insert fi.1 a else a)
          (ng.variables_.foldr (fun vi a =>
            if vi.2.any (fun dep => normalizeName dep ∈ dn) then insert vi.1 a else a)
            ∅))) ∧
    (∀ f ds, (f, ds) ∈ ng.functions → (∃ d ∈ ds, normalizeName d ∈ dn) →
      f ∈ expandDeletionImpact ng (symBound ng)
        (ng.functions.foldr (fun fi a =>
          if fi.2.any (fun dep => normalizeName dep ∈ dn) then insert fi.1 a else a)
          (ng.variables_.foldr (fun vi a =>
            if vi.2.any (fun dep => normalizeName dep ∈ dn) then insert vi.1 a else a)
            ∅))) := by
  constructor
  · intro v ds hm hex
    apply expandDeletionImpact_mono
    apply seedInsert_base_mono
    apply seedInsert_mem _ _ _ _ ds hm
    simp only [List.any_eq_true, decide_eq_true_eq]
    exact hex
  · intro f ds hm hex
    apply expandDeletionImpact_mono
    apply seedInsert_mem _ _ _ _ ds hm
    simp only [List.any_eq_true, decide_eq_true_eq]
    exact hex

/-- C4: the deletion impact trace propagates without kind separation: every
current variable or function one of whose dependencies collapses (via
`normalize`) onto a deleted variable or function of either kind appears in
the returned `affected_by_deletion` set. -/
theorem claim_C4_deletion_impact_kindless (fileName : String)
    (builtinNames : List String) (inp : FileInput) (old_graph : SymbolTable) :
    (∀ v ds, (v, ds) ∈ (build_full_graph_for_file fileName builtinNames inp).variables_ →
      (∃ d ∈ ds, normalizeName d ∈ normSet
        ((get_deleted_variables_impact fileName builtinNames inp old_graph).1 ∪
          (get_deleted_variables_impact fileName builtinNames inp old_graph).2.1)) →
      v ∈ (get_deleted_variables_impact fileName builtinNames inp old_graph).2.2) ∧
    (∀ f ds, (f, ds) ∈ (build_full_graph_for_file fileName builtinNames inp).functions →
      (∃ d ∈ ds, normalizeName d ∈ normSet
        ((get_deleted_variables_impact fileName builtinNames inp old_graph).1 ∪
          (get_deleted_variables_impact fileName builtinNames inp old_graph).2.1)) →
      f ∈ (get_deleted_variables_impact fileName builtinNames inp old_graph).2.2) :=
  ⟨fun v ds hm hex =>
    (deletion_seed_in_result (build_full_graph_for_file fileName builtinNames inp)
      (normSet
        ((get_deleted_variables_impact fileName builtinNames inp old_graph).1 ∪
          (get_deleted_variables_impact fileName builtinNames inp old_graph).2.1))).1
      v ds hm hex,
   fun f ds hm hex =>
    (deletion_seed_in_result (build_full_graph_for_file fileName builtinNames inp)
      (normSet
        ((get_deleted_variables_impact fileName builtinNames inp old_graph).1 ∪
          (get_deleted_variables_impact fileName builtinNames inp old_graph).2.1))).2
      f ds hm hex⟩

/-- Witness for C4: deleting function `t.g.g` (present in the old graph,
absent from the new file) marks both the still-calling function `t.f.f` and
the variable `t.x` (which references `g`) as affected — cross-kind. -/
theorem claim_C4_deletion_impact_kindless_witness :
    ((get_deleted_variables_impact "t" [] (.parsed (PBody.ofList
        [.functionDef "f" [] (PBody.ofList [.ret (.call (.name "g") .nil)]),
         .assign [.name "x"] (.name "g")]))
      (SymbolTable.mk [("t.x", ["t.g"])] [("t.f.f", ["t.f.g"]), ("t.g.g", [])])).2.1
      = {"t.g.g"}) ∧
    "t.f.f" ∈ (get_deleted_variables_impact "t" [] (.parsed (PBody.ofList
        [.functionDef "f" [] (PBody.ofList [.ret (.call (.name "g") .nil)]),
         .assign [.name "x"] (.name "g")]))
      (SymbolTable.mk [("t.x", ["t.g"])] [("t.f.f", ["t.f.g"]), ("t.g.g", [])])).2.2 ∧
    "t.x" ∈ (get_deleted_variables_impact "t" [] (.parsed (PBody.ofList
        [.functionDef "f" [] (PBody.ofList [.ret (.call (.name "g") .nil)]),
         .assign [.name "x"] (.name "g")]))
      (SymbolTable.mk [("t.x", ["t.g"])] [("t.f.f", ["t.f.g"]), ("t.g.g", [])])).2.2 :=
  ⟨by decide,
   (claim_C4_deletion_impact_kindless "t" [] (.parsed (PBody.ofList
        [.functionDef "f" [] (PBody.ofList [.ret (.call (.name "g") .nil)]),
         .assign [.name "x"] (.name "g")]))
      (SymbolTable.mk [("t.x", ["t.g"])] [("t.f.f", ["t.f.g"]), ("t.g.g", [])])).2
     "t.f.f" ["t.f.g"] (by decide) (by decide),
   (claim_C4_deletion_impact_kindless "t" [] (.parsed (PBody.ofList
        [.functionDef "f" [] (PBody.ofList [.ret (.call (.name "g") .nil)]),
         .assign [.name "x"] (.name "g")]))
      (SymbolTable.mk [("t.x", ["t.g"])] [("t.f.f", ["t.f.g"]), ("t.g.g", [])])).1
     "t.x" ["t.g"] (by decide) (by decide)⟩
